import Mathlib

/-!
# Dynamic k-max pooling: partitioning, chunk arg-max, pooling and unpooling

A shallow embedding of the per-matrix routines of `DynamicKMaxPoolingLayer`
(`src/layer/common/dynamic_k_max_pooling-inl.hpp`) and of its pool-size schedule
`get_dynamic_k`, together with proofs of their contracts.

Modelling conventions.

* C++ `int` values are unbounded `Int` (no overflow); `/` and `%` on `int` are the
  truncating `Int.tdiv` and `Int.tmod`.  Integer division by zero aborts the call.
  Where overflow matters, in `get_dynamic_k`, the 32-bit routine is `get_dynamic_k_int32`,
  whose operations wrap (`wrap32`).
* The first loop of `dynamic_split` counts in `size_t`; its two bounds are `int` values
  converted to `size_t` (`to_size_t`, 64 bits).  Theorems about that loop therefore carry
  the bound `segments < 2 ^ 64`, which every `int` satisfies.
* `utils::Check` with a false condition aborts the call; a call that aborts returns
  `Except.error`.
* A `std::vector<int>` is a `List Int`; `push_back` appends, `pos[k]` is `pos.getD k 0`.
* A `Tensor2D` is its two sizes plus the content of its cells.  `t[r][c]` is
  `t.cell r c`; the access itself is unchecked, as in the source, and the statements say
  where the indices lie.
* Cell values are elements of a linearly ordered ring (`ℤ`, `ℚ`, `ℝ`), which stands
  for the finite `float` values with exact arithmetic; NaN and the infinities are not
  modelled.
-/

namespace textnet

/-- The ways a call can abort. `split_error` and `size_error` are the two messages
passed to `utils::Check`; `division_by_zero` is an integer division by zero. -/
inductive Failure where
  | split_error
  | size_error
  | division_by_zero
  deriving DecidableEq

/-- A two-dimensional tensor: `size0` rows, `size1` columns, and the cell content. -/
structure Tensor2D (α : Type) where
  size0 : Nat
  size1 : Nat
  cell : Int → Int → α

/-- The assignment `t[r][c] = v`. -/
def Tensor2D.set {α : Type} (t : Tensor2D α) (r c : Int) (v : α) : Tensor2D α :=
  { t with cell := fun r' c' => if r' = r ∧ c' = c then v else t.cell r' c' }

/-- Conversion of an `int` to the 64-bit `size_t`. -/
def to_size_t (x : Int) : Nat := (x % 2 ^ 64).toNat

/-- The values `b, b+1, ..., e-1` taken by `for (int x = b; x < e; ++x)`. -/
def int_range (b e : Int) : List Int :=
  (List.range (e - b).toNat).map (fun (k : Nat) => b + (k : Int))

/-! ## `dynamic_split` -/

/-- One iteration of the first loop of `dynamic_split`, with loop counter `i`. -/
def split_step (pool_row margin mod : Int) (pos : List Int) (i : Nat) : List Int :=
  if i < to_size_t (pool_row - mod) then
    pos ++ [pos.getLastD 0 + margin]
  else
    pos ++ [pos.getLastD 0 + margin + 1]

/-- The second loop of `dynamic_split`: both checks on every pair of neighbours. -/
def split_check (pad_input_row pool_row : Int) : List Int → Bool
  | a :: b :: rest =>
    decide (a < b) && decide (b - a ≤ Int.tdiv (pad_input_row - 1) pool_row + 1)
      && split_check pad_input_row pool_row (b :: rest)
  | _ => true

/-- The content of `pos` after a successful call of `dynamic_split(input_row, pool_row, pos)`.
The definition describes the source for `pool_row ≥ 0`.  For `pool_row < 0` the loop bound
converted to `size_t` is `2 ^ 64 + pool_row`; the source runs out of memory in `push_back`
before it reaches the checks, and no statement below is about that case. -/
def dynamic_split (input_row pool_row : Int) : Except Failure (List Int) :=
  let pad_input_row := if input_row < pool_row then pool_row else input_row
  if pool_row = 0 then .error .division_by_zero else
  let margin := Int.tdiv pad_input_row pool_row
  let mod := Int.tmod pad_input_row pool_row
  let pos := (List.range (to_size_t pool_row)).foldl (split_step pool_row margin mod) [0]
  if pos.getLastD 0 ≠ pad_input_row then .error .split_error
  else if split_check pad_input_row pool_row pos = false then .error .split_error
  else .ok pos

/-! ## `pooling_one_chunk` -/

section Pooling

variable {α : Type} [LinearOrderedRing α]

/-- The body of the inner loop of `pooling_one_chunk`; the state is
`(max_val, max_row, max_col)`. -/
def chunk_cell (t : Tensor2D α) (input_row input_col row_idx : Int)
    (s : α × Int × Int) (col_idx : Int) : α × Int × Int :=
  let real_row_idx := Int.tmod row_idx input_row
  let real_col_idx := Int.tmod col_idx input_col
  if t.cell real_row_idx real_col_idx > s.1 then
    (t.cell real_row_idx real_col_idx, row_idx, col_idx)
  else s

/-- The two nested loops of `pooling_one_chunk`, from the initial state. -/
def chunk_scan (t : Tensor2D α) (input_row input_col begin_row end_row begin_col end_col : Int) :
    α × Int × Int :=
  (int_range begin_row end_row).foldl
    (fun s row_idx =>
      (int_range begin_col end_col).foldl (chunk_cell t input_row input_col row_idx) s)
    (-100000000, -1, -1)

/-- The pair `(max_row, max_col)` that `pooling_one_chunk` leaves in its out-parameters. -/
def pooling_one_chunk (t : Tensor2D α) (input_row input_col begin_row end_row
    begin_col end_col : Int) : Int × Int :=
  (chunk_scan t input_row input_col begin_row end_row begin_col end_col).2

/-! ## `pooling_one_matrix` -/

/-- The three tensors written by `pooling_one_matrix`. -/
structure PoolState (α : Type) where
  t_out : Tensor2D α
  row_pos : Tensor2D Int
  col_pos : Tensor2D Int

/-- The body of the inner loop of `pooling_one_matrix` for output cell `(i, j)`. -/
def pool_cell (t_in : Tensor2D α) (input_row input_col : Int)
    (begin_pos_row begin_pos_col : List Int) (i : Nat) (s : PoolState α) (j : Nat) :
    PoolState α :=
  let m := pooling_one_chunk t_in input_row input_col
    (begin_pos_row.getD i 0) (begin_pos_row.getD (i + 1) 0)
    (begin_pos_col.getD j 0) (begin_pos_col.getD (j + 1) 0)
  let real_pos_row := Int.tmod m.1 input_row
  let real_pos_col := Int.tmod m.2 input_col
  { t_out := s.t_out.set i j (t_in.cell real_pos_row real_pos_col)
    row_pos := s.row_pos.set i j real_pos_row
    col_pos := s.col_pos.set i j real_pos_col }

/-- The two nested loops of `pooling_one_matrix`. -/
def pool_loops (t_in : Tensor2D α) (input_row input_col pool_row pool_col : Int)
    (begin_pos_row begin_pos_col : List Int) (s : PoolState α) : PoolState α :=
  (List.range pool_row.toNat).foldl
    (fun s i =>
      (List.range pool_col.toNat).foldl
        (pool_cell t_in input_row input_col begin_pos_row begin_pos_col i) s)
    s

/-- The routine `pooling_one_matrix`: the size checks, the two splits, the loops.  The
result holds `t_out`, `row_pos` and `col_pos` as they are after the call. -/
def pooling_one_matrix (t_in t_out : Tensor2D α) (input_row input_col pool_row pool_col : Int)
    (row_pos col_pos : Tensor2D Int) : Except Failure (PoolState α) :=
  if ¬ ((t_out.size0 : Int) = pool_row ∧ (t_out.size1 : Int) = pool_col) then
    .error .size_error
  else if ¬ ((t_in.size0 : Int) ≥ input_row ∧ (t_in.size1 : Int) ≥ input_col) then
    .error .size_error
  else if ¬ ((t_in.size0 : Int) ≥ pool_row ∧ (t_in.size1 : Int) ≥ pool_col) then
    .error .size_error
  else
    match dynamic_split input_row pool_row with
    | .error e => .error e
    | .ok begin_pos_row =>
      match dynamic_split input_col pool_col with
      | .error e => .error e
      | .ok begin_pos_col =>
        .ok (pool_loops t_in input_row input_col pool_row pool_col
          begin_pos_row begin_pos_col ⟨t_out, row_pos, col_pos⟩)

/-! ## `unpooling_one_matrix` -/

/-- The body of the inner loop of `unpooling_one_matrix` for output cell `(i, j)`. -/
def unpool_cell (t_out : Tensor2D α) (row_pos col_pos : Tensor2D Int) (i : Nat)
    (t_in : Tensor2D α) (j : Nat) : Tensor2D α :=
  let real_pos_row := row_pos.cell i j
  let real_pos_col := col_pos.cell i j
  t_in.set real_pos_row real_pos_col (t_in.cell real_pos_row real_pos_col + t_out.cell i j)

/-- The routine `unpooling_one_matrix`; the result is `t_in` after the call. -/
def unpooling_one_matrix (t_in t_out : Tensor2D α) (pool_row pool_col : Int)
    (row_pos col_pos : Tensor2D Int) : Tensor2D α :=
  (List.range pool_row.toNat).foldl
    (fun t i => (List.range pool_col.toNat).foldl (unpool_cell t_out row_pos col_pos i) t)
    t_in

end Pooling

/-! ## Auxiliary notions used in the statements and proofs -/

/-- The closed form of the boundary list: entry `k` is `k * margin` plus one for every
index among `T, T+1, ..., k-1`. -/
def split_closed (margin : Int) (T n : Nat) : List Int :=
  (List.range (n + 1)).map (fun (k : Nat) => (k : Int) * margin + ((k - T : Nat) : Int))

/-- The consecutive differences `b[1] - b[0], b[2] - b[1], ...` of a list. -/
def gaps (b : List Int) : List Int := List.zipWith (fun x y => y - x) b b.tail

/-- The cells visited by the two loops of `pooling_one_chunk`, in the order of the scan. -/
def chunk_cells (begin_row end_row begin_col end_col : Int) : List (Int × Int) :=
  (int_range begin_row end_row).flatMap
    (fun row_idx => (int_range begin_col end_col).map (fun col_idx => (row_idx, col_idx)))

/-- Row-major order on cells: an earlier row, or the same row and an earlier column. -/
def scan_before (x y : Int × Int) : Prop := x.1 < y.1 ∨ (x.1 = y.1 ∧ x.2 < y.2)

/-- The tensor whose rows are the given lists (cells outside the lists hold `0`). -/
def Tensor2D.of_rows {α : Type} [Zero α] (rows : List (List α)) : Tensor2D α :=
  { size0 := rows.length
    size1 := (rows.headD []).length
    cell := fun r c =>
      if 0 ≤ r ∧ 0 ≤ c then (rows.getD r.toNat []).getD c.toNat 0 else 0 }

/-- The 1 x 5 grid `[1, 5, 3, 5, 2]`. -/
def grid_1x5 : Tensor2D Int := Tensor2D.of_rows [[1, 5, 3, 5, 2]]

/-- The pair that the call of `pooling_one_chunk` inside `pooling_one_matrix` returns for
output cell `(i, j)`. -/
def chunk_pick {α : Type} [LinearOrderedRing α] (t_in : Tensor2D α) (input_row input_col : Int)
    (begin_pos_row begin_pos_col : List Int) (i j : Nat) : Int × Int :=
  pooling_one_chunk t_in input_row input_col
    (begin_pos_row.getD i 0) (begin_pos_row.getD (i + 1) 0)
    (begin_pos_col.getD j 0) (begin_pos_col.getD (j + 1) 0)

/-- The `m x n` tensor that holds `0` everywhere. -/
def Tensor2D.zeros {α : Type} [Zero α] (m n : Nat) : Tensor2D α :=
  { size0 := m, size1 := n, cell := fun _ _ => 0 }

/-- A 2 x 2 grid whose four cells hold `-200000000`. -/
def grid_low : Tensor2D Int :=
  Tensor2D.of_rows [[-200000000, -200000000], [-200000000, -200000000]]

/-- The sum of all entries of a tensor. -/
def Tensor2D.total {α : Type} [AddCommMonoid α] (t : Tensor2D α) : α :=
  Finset.sum (Finset.range t.size0) (fun r =>
    Finset.sum (Finset.range t.size1) (fun c => t.cell r c))

/-! ## `get_dynamic_k` -/

/-- The routine `get_dynamic_k` over unbounded integers, that is, with arithmetic that does
not overflow; the division is reached only when `l ≠ L`. -/
def get_dynamic_k (sentence_length min_rep_length L l : Int) : Except Failure Int :=
  if l = L then .ok 1 else
  if L = 0 then .error .division_by_zero else
  let k := Int.tdiv ((L - l) * sentence_length + L - 1) L
  if k < min_rep_length then .ok min_rep_length else .ok k

/-- The value of a 32-bit `int` operation whose exact result is `x`: two's-complement wrap
into `[-2^31, 2^31)`. -/
def wrap32 (x : Int) : Int := (x + 2 ^ 31) % 2 ^ 32 - 2 ^ 31

/-- The routine `get_dynamic_k` on 32-bit `int`: the subtraction, the product, the sum and
the decrement of `((L-l)*sentence_length + L-1)` each wrap.  The machine division traps on
a zero divisor and on the quotient `INT_MIN / -1`, which does not fit; both abort the
call. -/
def get_dynamic_k_int32 (sentence_length min_rep_length L l : Int) : Except Failure Int :=
  if l = L then .ok 1 else
  let num := wrap32 (wrap32 (wrap32 (wrap32 (L - l) * sentence_length) + L) - 1)
  if L = 0 ∨ (num = -2 ^ 31 ∧ L = -1) then .error .division_by_zero else
  let k := Int.tdiv num L
  if k < min_rep_length then .ok min_rep_length else .ok k

/-- The content of `pos` when the first loop of `dynamic_split` ends, before the checks. -/
def split_loop (input_row pool_row : Int) : List Int :=
  let pad_input_row := if input_row < pool_row then pool_row else input_row
  (List.range (to_size_t pool_row)).foldl
    (split_step pool_row (Int.tdiv pad_input_row pool_row) (Int.tmod pad_input_row pool_row)) [0]

/-- A grid of capacity 4 x 1 whose first two rows hold `3` and `7`. -/
def grid_4x1 : Tensor2D Int := Tensor2D.of_rows [[3], [7], [0], [0]]

/-- The 2 x 2 grid with rows `[1, 2]` and `[3, 4]`. -/
def grid_2x2 : Tensor2D Int := Tensor2D.of_rows [[1, 2], [3, 4]]

end textnet

/-! # Theorems -/

namespace textnet

/-! ## The boundary list in closed form -/

theorem split_closed_succ (margin : Int) (T n : Nat) :
    split_closed margin T (n + 1) =
      split_closed margin T n ++ [((n + 1 : Nat) : Int) * margin + ((n + 1 - T : Nat) : Int)] := by
  unfold split_closed
  rw [List.range_succ, List.map_append]
  rfl

theorem split_closed_getLastD (margin : Int) (T n : Nat) :
    (split_closed margin T n).getLastD 0 = (n : Int) * margin + ((n - T : Nat) : Int) := by
  unfold split_closed
  rw [List.range_succ, List.map_append]
  simp

theorem split_fold (pool_row margin mod : Int) (n : Nat) :
    (List.range n).foldl (split_step pool_row margin mod) [0] =
      split_closed margin (to_size_t (pool_row - mod)) n := by
  induction n with
  | zero => simp [split_closed, List.range_succ]
  | succ n ih =>
    rw [List.range_succ, List.foldl_append, ih, split_closed_succ]
    simp only [List.foldl_cons, List.foldl_nil, split_step, split_closed_getLastD]
    split_ifs with h
    · congr 2
      have e1 : n + 1 - to_size_t (pool_row - mod) = 0 := by omega
      have e2 : n - to_size_t (pool_row - mod) = 0 := by omega
      rw [e1, e2]; push_cast; ring
    · congr 2
      have e1 : n + 1 - to_size_t (pool_row - mod) = (n - to_size_t (pool_row - mod)) + 1 := by
        omega
      rw [e1]; push_cast; ring

theorem split_closed_length (margin : Int) (T n : Nat) :
    (split_closed margin T n).length = n + 1 := by
  simp [split_closed]

theorem split_closed_getD (margin : Int) (T n k : Nat) (hk : k ≤ n) :
    (split_closed margin T n).getD k 0 = (k : Int) * margin + ((k - T : Nat) : Int) := by
  have hk2 : k < n + 1 := by omega
  simp [split_closed, List.getD_eq_getElem?_getD, List.getElem?_map, List.getElem?_range hk2]

theorem split_closed_head (margin : Int) (T n : Nat) :
    (split_closed margin T n).head? = some 0 := by
  simp [split_closed, List.range_succ_eq_map]

theorem split_closed_getLast (margin : Int) (T n : Nat) :
    (split_closed margin T n).getLast? = some ((n : Int) * margin + ((n - T : Nat) : Int)) := by
  unfold split_closed
  rw [List.range_succ, List.map_append]
  simp

theorem split_closed_pairwise (margin : Int) (T n : Nat) (hm : 1 ≤ margin) :
    (split_closed margin T n).Pairwise (· < ·) := by
  unfold split_closed
  rw [List.pairwise_map]
  refine List.Pairwise.imp ?_ (List.pairwise_lt_range (n + 1))
  intro a b hab
  have h1 : (a : Int) * margin < (b : Int) * margin := by
    have : (a : Int) < (b : Int) := by exact_mod_cast hab
    nlinarith
  have h2 : ((a - T : Nat) : Int) ≤ ((b - T : Nat) : Int) := by
    have : a - T ≤ b - T := by omega
    exact_mod_cast this
  linarith

theorem gaps_split_closed (margin : Int) (T n : Nat) :
    gaps (split_closed margin T n) =
      (List.range n).map (fun (k : Nat) => if k < T then margin else margin + 1) := by
  apply List.ext_getElem
  · simp [gaps, split_closed]
  · intro k h1 h2
    simp only [gaps, split_closed, List.getElem_zipWith, List.getElem_tail, List.getElem_map,
      List.getElem_range]
    split_ifs with h
    · have e1 : k + 1 - T = 0 := by omega
      have e2 : k - T = 0 := by omega
      rw [e1, e2]; push_cast; ring
    · have e1 : k + 1 - T = k - T + 1 := by omega
      rw [e1]; push_cast; ring

theorem range_map_ite_eq (margin : Int) (T n : Nat) (h : T ≤ n) :
    (List.range n).map (fun (k : Nat) => if k < T then margin else margin + 1) =
      List.replicate T margin ++ List.replicate (n - T) (margin + 1) := by
  apply List.ext_getElem
  · simp; omega
  · intro k h1 h2
    simp only [List.getElem_map, List.getElem_range]
    by_cases hk : k < T
    · rw [List.getElem_append_left (by simpa using hk)]
      simp [hk]
    · rw [List.getElem_append_right (by simpa using hk)]
      simp [hk]

theorem gaps_cons_cons (a b : Int) (rest : List Int) :
    gaps (a :: b :: rest) = (b - a) :: gaps (b :: rest) := by
  simp [gaps]

theorem split_check_iff (pad_input_row pool_row : Int) (l : List Int) :
    split_check pad_input_row pool_row l = true ↔
      ∀ g ∈ gaps l, 0 < g ∧ g ≤ Int.tdiv (pad_input_row - 1) pool_row + 1 := by
  induction l with
  | nil => simp [split_check, gaps]
  | cons a l ih =>
    cases l with
    | nil => simp [split_check, gaps]
    | cons b rest =>
      rw [gaps_cons_cons]
      simp only [split_check, Bool.and_eq_true, decide_eq_true_eq, ih, List.mem_cons,
        forall_eq_or_imp, sub_pos, and_assoc]

/-! ## `dynamic_split` on valid arguments -/

theorem to_size_t_of_nonneg (x : Int) (h0 : 0 ≤ x) (h1 : x < 2 ^ 64) :
    to_size_t x = x.toNat := by
  unfold to_size_t
  rw [Int.emod_eq_of_lt h0 h1]

/-- On `extent ≥ 1`, `segments ≥ 1` the call succeeds and `pos` is the closed form with
`margin = padded / segments` and the switch to the longer step at index
`segments - padded % segments`. -/
theorem dynamic_split_eq_closed (extent segments : Int) (hs : 1 ≤ segments)
    (hb : segments < 2 ^ 64) :
    dynamic_split extent segments =
      .ok (split_closed (max extent segments / segments)
        (segments - max extent segments % segments).toNat segments.toNat) := by
  have hpad : (if extent < segments then segments else extent) = max extent segments := by
    split_ifs with h
    · exact (max_eq_right (le_of_lt h)).symm
    · exact (max_eq_left (not_lt.mp h)).symm
  have hge : segments ≤ max extent segments := le_max_right _ _
  set P := max extent segments with hP
  have hs0 : (0 : Int) < segments := by omega
  have hr0 : 0 ≤ P % segments := Int.emod_nonneg _ (by omega)
  have hr1 : P % segments < segments := Int.emod_lt_of_pos _ hs0
  have hdm : segments * (P / segments) + P % segments = P := Int.ediv_add_emod P segments
  have hm1 : 1 ≤ P / segments := by
    rw [Int.le_ediv_iff_mul_le hs0]; omega
  have htd : Int.tdiv P segments = P / segments := Int.tdiv_eq_ediv (by omega) (by omega)
  have htm : Int.tmod P segments = P % segments := Int.tmod_eq_emod (by omega) (by omega)
  have hq : Int.tdiv (P - 1) segments = (P - 1) / segments :=
    Int.tdiv_eq_ediv (by omega) (by omega)
  have hT : to_size_t (segments - P % segments) = (segments - P % segments).toNat :=
    to_size_t_of_nonneg _ (by omega) (by omega)
  have hS : to_size_t segments = segments.toNat := to_size_t_of_nonneg _ (by omega) hb
  have hne : segments ≠ 0 := by omega
  unfold dynamic_split
  simp only [hpad, hne, if_false, htd, htm, split_fold, hT, hS, split_closed_getLastD]
  have hlast : (segments.toNat : Int) * (P / segments) +
      ((segments.toNat - (segments - P % segments).toNat : Nat) : Int) = P := by
    have e1 : (segments.toNat : Int) = segments := Int.toNat_of_nonneg (by omega)
    have e2 : ((segments.toNat - (segments - P % segments).toNat : Nat) : Int) = P % segments := by
      omega
    rw [e1, e2]; exact hdm
  have hchk : split_check P segments (split_closed (P / segments)
      (segments - P % segments).toNat segments.toNat) = true := by
    rw [split_check_iff, gaps_split_closed, hq]
    intro g hg
    simp only [List.mem_map, List.mem_range] at hg
    obtain ⟨k, hk, rfl⟩ := hg
    split_ifs with h
    · refine ⟨by omega, ?_⟩
      have : P / segments - 1 ≤ (P - 1) / segments := by
        rw [Int.le_ediv_iff_mul_le hs0]; nlinarith
      omega
    · refine ⟨by omega, ?_⟩
      have hrpos : 1 ≤ P % segments := by omega
      have : P / segments ≤ (P - 1) / segments := by
        rw [Int.le_ediv_iff_mul_le hs0]; nlinarith
      omega
  rw [hlast, hchk]
  simp

/-- C1. For `extent ≥ 1` and `segments ≥ 1` (an `int`, hence below `2^64`),
`dynamic_split(extent, segments)` succeeds; the boundary list has `segments + 1` entries,
starts at 0, is strictly increasing and ends at `padded = max(extent, segments)`; every
consecutive gap is `padded / segments` or that plus one, and exactly `padded % segments`
gaps are the larger ones. -/
theorem dynamic_split_partition (extent segments : Int) (he : 1 ≤ extent) (hs : 1 ≤ segments)
    (hb : segments < 2 ^ 64) :
    ∃ b : List Int, dynamic_split extent segments = .ok b ∧
      (b.length : Int) = segments + 1 ∧
      b.head? = some 0 ∧
      b.Pairwise (· < ·) ∧
      b.getLast? = some (max extent segments) ∧
      (∀ g ∈ gaps b, g = max extent segments / segments ∨
        g = max extent segments / segments + 1) ∧
      ((gaps b).count (max extent segments / segments + 1) : Int) =
        max extent segments % segments := by
  have hge : segments ≤ max extent segments := le_max_right _ _
  have hp : 1 ≤ max extent segments := le_trans he (le_max_left _ _)
  refine ⟨_, dynamic_split_eq_closed extent segments hs hb, ?_⟩
  set P := max extent segments with hP
  have hs0 : (0 : Int) < segments := by omega
  have hr0 : 0 ≤ P % segments := Int.emod_nonneg _ (by omega)
  have hr1 : P % segments < segments := Int.emod_lt_of_pos _ hs0
  have hdm : segments * (P / segments) + P % segments = P := Int.ediv_add_emod P segments
  have hm1 : 1 ≤ P / segments := by
    rw [Int.le_ediv_iff_mul_le hs0]; omega
  have e1 : (segments.toNat : Int) = segments := Int.toNat_of_nonneg (by omega)
  refine ⟨?_, split_closed_head _ _ _, split_closed_pairwise _ _ _ hm1, ?_, ?_, ?_⟩
  · rw [split_closed_length]; push_cast; omega
  · rw [split_closed_getLast]
    have e2 : ((segments.toNat - (segments - P % segments).toNat : Nat) : Int) = P % segments := by
      omega
    rw [e1, e2, hdm]
  · intro g hg
    rw [gaps_split_closed] at hg
    simp only [List.mem_map, List.mem_range] at hg
    obtain ⟨k, _, rfl⟩ := hg
    split_ifs
    · exact Or.inl rfl
    · exact Or.inr rfl
  · rw [gaps_split_closed, range_map_ite_eq _ _ _ (by omega), List.count_append,
      List.count_replicate, List.count_replicate]
    simp
    omega

/-- C1, at `extent = 5`, `segments = 3`. -/
theorem dynamic_split_partition_witness :
    (1 : Int) ≤ 5 ∧ (1 : Int) ≤ 3 ∧ (3 : Int) < 2 ^ 64 ∧
    ∃ b : List Int, dynamic_split 5 3 = .ok b ∧
      (b.length : Int) = 3 + 1 ∧
      b.head? = some 0 ∧
      b.Pairwise (· < ·) ∧
      b.getLast? = some (max 5 3) ∧
      (∀ g ∈ gaps b, g = max 5 3 / 3 ∨ g = max 5 3 / 3 + 1) ∧
      ((gaps b).count (max 5 3 / 3 + 1) : Int) = max 5 3 % 3 :=
  ⟨by decide, by decide, by norm_num,
    dynamic_split_partition 5 3 (by decide) (by decide) (by norm_num)⟩

/-- C2. For `extent ≥ 1` and `segments ≥ 1`, with `padded = max(extent, segments)`,
`margin = padded / segments` and `remainder = padded % segments`, the boundaries `b` of
`dynamic_split` satisfy `b[k+1] - b[k] = margin` for `k < segments - remainder` and
`b[k+1] - b[k] = margin + 1` for `segments - remainder ≤ k < segments`: the longer
segments are the last `remainder` ones. -/
theorem dynamic_split_gap_placement (extent segments : Int) (he : 1 ≤ extent)
    (hs : 1 ≤ segments) (hb : segments < 2 ^ 64) :
    ∃ b : List Int, dynamic_split extent segments = .ok b ∧
      (b.length : Int) = segments + 1 ∧
      (∀ k : Nat, (k : Int) < segments - max extent segments % segments →
        b.getD (k + 1) 0 - b.getD k 0 = max extent segments / segments) ∧
      (∀ k : Nat, segments - max extent segments % segments ≤ (k : Int) → (k : Int) < segments →
        b.getD (k + 1) 0 - b.getD k 0 = max extent segments / segments + 1) := by
  have hge : segments ≤ max extent segments := le_max_right _ _
  have hp : 1 ≤ max extent segments := le_trans he (le_max_left _ _)
  refine ⟨_, dynamic_split_eq_closed extent segments hs hb, ?_⟩
  set P := max extent segments with hP
  have hs0 : (0 : Int) < segments := by omega
  have hr0 : 0 ≤ P % segments := Int.emod_nonneg _ (by omega)
  have hr1 : P % segments < segments := Int.emod_lt_of_pos _ hs0
  refine ⟨?_, ?_, ?_⟩
  · rw [split_closed_length]; push_cast; omega
  · intro k hk
    rw [split_closed_getD _ _ _ _ (by omega), split_closed_getD _ _ _ _ (by omega)]
    have e1 : k + 1 - (segments - P % segments).toNat = 0 := by omega
    have e2 : k - (segments - P % segments).toNat = 0 := by omega
    rw [e1, e2]; push_cast; ring
  · intro k hk1 hk2
    rw [split_closed_getD _ _ _ _ (by omega), split_closed_getD _ _ _ _ (by omega)]
    have e1 : k + 1 - (segments - P % segments).toNat =
        k - (segments - P % segments).toNat + 1 := by omega
    rw [e1]; push_cast; ring

/-- C2, at `extent = 5`, `segments = 3`. -/
theorem dynamic_split_gap_placement_witness :
    (1 : Int) ≤ 5 ∧ (1 : Int) ≤ 3 ∧ (3 : Int) < 2 ^ 64 ∧
    ∃ b : List Int, dynamic_split 5 3 = .ok b ∧
      (b.length : Int) = 3 + 1 ∧
      (∀ k : Nat, (k : Int) < 3 - max 5 3 % 3 →
        b.getD (k + 1) 0 - b.getD k 0 = max 5 3 / 3) ∧
      (∀ k : Nat, 3 - max 5 3 % 3 ≤ (k : Int) → (k : Int) < 3 →
        b.getD (k + 1) 0 - b.getD k 0 = max 5 3 / 3 + 1) :=
  ⟨by decide, by decide, by norm_num,
    dynamic_split_gap_placement 5 3 (by decide) (by decide) (by norm_num)⟩

/-! ## The scan of `pooling_one_chunk` -/

theorem mem_int_range (b e x : Int) : x ∈ int_range b e ↔ b ≤ x ∧ x < e := by
  simp only [int_range, List.mem_map, List.mem_range]
  constructor
  · rintro ⟨k, hk, rfl⟩
    omega
  · rintro ⟨h1, h2⟩
    exact ⟨(x - b).toNat, by omega, by omega⟩

theorem int_range_pairwise (b e : Int) : (int_range b e).Pairwise (· < ·) := by
  unfold int_range
  rw [List.pairwise_map]
  refine List.Pairwise.imp ?_ (List.pairwise_lt_range _)
  intro x y hxy
  have : (x : Int) < (y : Int) := by exact_mod_cast hxy
  omega

theorem int_range_eq_nil (b e : Int) (h : e ≤ b) : int_range b e = [] := by
  have : (e - b).toNat = 0 := by omega
  simp [int_range, this]

theorem mem_chunk_cells (begin_row end_row begin_col end_col : Int) (x : Int × Int) :
    x ∈ chunk_cells begin_row end_row begin_col end_col ↔
      (begin_row ≤ x.1 ∧ x.1 < end_row) ∧ (begin_col ≤ x.2 ∧ x.2 < end_col) := by
  obtain ⟨r, c⟩ := x
  simp only [chunk_cells, List.mem_flatMap, List.mem_map, mem_int_range, Prod.mk.injEq]
  constructor
  · rintro ⟨r', hr, c', hc, rfl, rfl⟩
    exact ⟨hr, hc⟩
  · rintro ⟨hr, hc⟩
    exact ⟨r, hr, c, hc, rfl, rfl⟩

theorem chunk_cells_pairwise (begin_row end_row begin_col end_col : Int) :
    (chunk_cells begin_row end_row begin_col end_col).Pairwise scan_before := by
  unfold chunk_cells
  rw [List.pairwise_flatMap]
  constructor
  · intro r _
    rw [List.pairwise_map]
    refine List.Pairwise.imp ?_ (int_range_pairwise begin_col end_col)
    intro c c' h
    exact Or.inr ⟨rfl, h⟩
  · refine List.Pairwise.imp ?_ (int_range_pairwise begin_row end_row)
    intro r r' h x hx y hy
    simp only [List.mem_map] at hx hy
    obtain ⟨_, _, rfl⟩ := hx
    obtain ⟨_, _, rfl⟩ := hy
    exact Or.inl h

section Pooling

variable {α : Type} [LinearOrderedRing α]

theorem chunk_scan_eq_foldl (t : Tensor2D α) (input_row input_col begin_row end_row
    begin_col end_col : Int) :
    chunk_scan t input_row input_col begin_row end_row begin_col end_col =
      (chunk_cells begin_row end_row begin_col end_col).foldl
        (fun s x => chunk_cell t input_row input_col x.1 s x.2) (-100000000, -1, -1) := by
  unfold chunk_scan chunk_cells
  generalize ((-100000000, -1, -1) : α × Int × Int) = s0
  induction int_range begin_row end_row generalizing s0 with
  | nil => rfl
  | cons r rows ih =>
    rw [List.foldl_cons, List.flatMap_cons, List.foldl_append, List.foldl_map, ih]

/-- The running state after scanning a list of cells: either nothing exceeded the
initial maximum and the state is unchanged, or the state holds the first cell of the
list whose value is the largest. -/
theorem scan_first_max (t : Tensor2D α) (input_row input_col : Int) (l : List (Int × Int))
    (s0 : α × Int × Int) :
    s0.1 ≤ (l.foldl (fun s x => chunk_cell t input_row input_col x.1 s x.2) s0).1 ∧
    (∀ x ∈ l, t.cell (Int.tmod x.1 input_row) (Int.tmod x.2 input_col) ≤
      (l.foldl (fun s x => chunk_cell t input_row input_col x.1 s x.2) s0).1) ∧
    ((l.foldl (fun s x => chunk_cell t input_row input_col x.1 s x.2) s0 = s0 ∧
        ∀ x ∈ l, t.cell (Int.tmod x.1 input_row) (Int.tmod x.2 input_col) ≤ s0.1) ∨
      ∃ l1 l2 p, l = l1 ++ p :: l2 ∧
        l.foldl (fun s x => chunk_cell t input_row input_col x.1 s x.2) s0 =
          (t.cell (Int.tmod p.1 input_row) (Int.tmod p.2 input_col), p.1, p.2) ∧
        s0.1 < t.cell (Int.tmod p.1 input_row) (Int.tmod p.2 input_col) ∧
        ∀ x ∈ l1, t.cell (Int.tmod x.1 input_row) (Int.tmod x.2 input_col) <
          t.cell (Int.tmod p.1 input_row) (Int.tmod p.2 input_col)) := by
  induction l generalizing s0 with
  | nil => simp
  | cons x l ih =>
    rw [List.foldl_cons]
    by_cases hx : t.cell (Int.tmod x.1 input_row) (Int.tmod x.2 input_col) > s0.1
    · have hs1 : chunk_cell t input_row input_col x.1 s0 x.2 =
          (t.cell (Int.tmod x.1 input_row) (Int.tmod x.2 input_col), x.1, x.2) := by
        simp [chunk_cell, hx]
      rw [hs1]
      obtain ⟨h1, h2, h3⟩ := ih (t.cell (Int.tmod x.1 input_row) (Int.tmod x.2 input_col), x.1, x.2)
      refine ⟨le_trans (le_of_lt hx) h1, ?_, Or.inr ?_⟩
      · intro y hy
        rcases List.mem_cons.mp hy with rfl | hy
        · exact h1
        · exact h2 y hy
      · rcases h3 with ⟨he, _⟩ | ⟨l1, l2, p, hl, he, hlt, hl1⟩
        · exact ⟨[], l, x, rfl, he, hx, by simp⟩
        · refine ⟨x :: l1, l2, p, by rw [hl]; rfl, he, lt_trans hx hlt, ?_⟩
          intro y hy
          rcases List.mem_cons.mp hy with rfl | hy
          · exact hlt
          · exact hl1 y hy
    · have hs1 : chunk_cell t input_row input_col x.1 s0 x.2 = s0 := by
        simp [chunk_cell, hx]
      rw [hs1]
      obtain ⟨h1, h2, h3⟩ := ih s0
      have hx' := not_lt.mp hx
      refine ⟨h1, ?_, ?_⟩
      · intro y hy
        rcases List.mem_cons.mp hy with rfl | hy
        · exact le_trans hx' h1
        · exact h2 y hy
      · rcases h3 with ⟨he, hall⟩ | ⟨l1, l2, p, hl, he, hlt, hl1⟩
        · refine Or.inl ⟨he, ?_⟩
          intro y hy
          rcases List.mem_cons.mp hy with rfl | hy
          · exact hx'
          · exact hall y hy
        · refine Or.inr ⟨x :: l1, l2, p, by rw [hl]; rfl, he, hlt, ?_⟩
          intro y hy
          rcases List.mem_cons.mp hy with rfl | hy
          · exact lt_of_le_of_lt hx' hlt
          · exact hl1 y hy

end Pooling

section Pooling

variable {α : Type} [LinearOrderedRing α]

/-- When some cell of the chunk exceeds the initial maximum, the scan ends on a cell of the
chunk that carries the largest value and that no cell of equal value precedes; indices
are wrapped by the truncating `%` of the source. -/
theorem chunk_scan_first_max (t : Tensor2D α) (input_row input_col begin_row end_row
    begin_col end_col : Int)
    (hex : ∃ x ∈ chunk_cells begin_row end_row begin_col end_col,
      -100000000 < t.cell (Int.tmod x.1 input_row) (Int.tmod x.2 input_col)) :
    ∃ p ∈ chunk_cells begin_row end_row begin_col end_col,
      chunk_scan t input_row input_col begin_row end_row begin_col end_col =
        (t.cell (Int.tmod p.1 input_row) (Int.tmod p.2 input_col), p.1, p.2) ∧
      (∀ x ∈ chunk_cells begin_row end_row begin_col end_col,
        t.cell (Int.tmod x.1 input_row) (Int.tmod x.2 input_col) ≤
          t.cell (Int.tmod p.1 input_row) (Int.tmod p.2 input_col)) ∧
      (∀ x ∈ chunk_cells begin_row end_row begin_col end_col, scan_before x p →
        t.cell (Int.tmod x.1 input_row) (Int.tmod x.2 input_col) <
          t.cell (Int.tmod p.1 input_row) (Int.tmod p.2 input_col)) := by
  obtain ⟨_, h2, h3⟩ := scan_first_max t input_row input_col
    (chunk_cells begin_row end_row begin_col end_col) (-100000000, -1, -1)
  rw [← chunk_scan_eq_foldl] at h2 h3
  rcases h3 with ⟨_, hall⟩ | ⟨l1, l2, p, hl, he, _, hl1⟩
  · obtain ⟨x, hx, hlt⟩ := hex
    exact absurd (hall x hx) (not_le.mpr hlt)
  · have hp : p ∈ chunk_cells begin_row end_row begin_col end_col := by
      rw [hl]; simp
    refine ⟨p, hp, he, ?_, ?_⟩
    · intro x hx
      have := h2 x hx
      rwa [he] at this
    · intro x hx hxp
      have hpw := chunk_cells_pairwise begin_row end_row begin_col end_col
      rw [hl, List.pairwise_append, List.pairwise_cons] at hpw
      rw [hl, List.mem_append, List.mem_cons] at hx
      rcases hx with hx | rfl | hx
      · exact hl1 x hx
      · unfold scan_before at hxp; omega
      · have hpx := hpw.2.1.1 x hx
        unfold scan_before at hxp hpx; omega

/-- C3. For positive logical extents and a chunk `[begin_row, end_row) x [begin_col, end_col)`
with non-negative begins in which some wrapped cell holds a value above `-100000000`,
`pooling_one_chunk` returns an un-wrapped pair `(r, c)` inside the chunk whose wrapped value
is at least the wrapped value of every cell of the chunk, and strictly above the wrapped
value of every chunk cell that precedes `(r, c)` in row-major order. -/
theorem pooling_one_chunk_first_max (t : Tensor2D α) (input_row input_col begin_row end_row
    begin_col end_col : Int) (hir : 0 < input_row) (hic : 0 < input_col)
    (hbr : 0 ≤ begin_row) (hbc : 0 ≤ begin_col)
    (hr : begin_row < end_row) (hc : begin_col < end_col)
    (hex : ∃ r c, begin_row ≤ r ∧ r < end_row ∧ begin_col ≤ c ∧ c < end_col ∧
      -100000000 < t.cell (r % input_row) (c % input_col)) :
    ∃ r c, pooling_one_chunk t input_row input_col begin_row end_row begin_col end_col = (r, c) ∧
      begin_row ≤ r ∧ r < end_row ∧ begin_col ≤ c ∧ c < end_col ∧
      (∀ r' c', begin_row ≤ r' → r' < end_row → begin_col ≤ c' → c' < end_col →
        t.cell (r' % input_row) (c' % input_col) ≤ t.cell (r % input_row) (c % input_col)) ∧
      (∀ r' c', begin_row ≤ r' → r' < end_row → begin_col ≤ c' → c' < end_col →
        (r' < r ∨ (r' = r ∧ c' < c)) →
        t.cell (r' % input_row) (c' % input_col) < t.cell (r % input_row) (c % input_col)) := by
  have _hne : begin_row < end_row ∧ begin_col < end_col := ⟨hr, hc⟩
  have wr : ∀ x : Int, begin_row ≤ x → Int.tmod x input_row = x % input_row := fun x hx =>
    Int.tmod_eq_emod (by omega) (by omega)
  have wc : ∀ x : Int, begin_col ≤ x → Int.tmod x input_col = x % input_col := fun x hx =>
    Int.tmod_eq_emod (by omega) (by omega)
  obtain ⟨r0, c0, h1, h2, h3, h4, h5⟩ := hex
  obtain ⟨p, hp, he, hmax, hfirst⟩ := chunk_scan_first_max t input_row input_col begin_row
    end_row begin_col end_col
    ⟨(r0, c0), (mem_chunk_cells _ _ _ _ _).mpr ⟨⟨h1, h2⟩, ⟨h3, h4⟩⟩, by
      simpa only [wr r0 h1, wc c0 h3] using h5⟩
  obtain ⟨⟨hp1, hp2⟩, ⟨hp3, hp4⟩⟩ := (mem_chunk_cells _ _ _ _ _).mp hp
  refine ⟨p.1, p.2, by simp [pooling_one_chunk, he], hp1, hp2, hp3, hp4, ?_, ?_⟩
  · intro r' c' a1 a2 a3 a4
    have := hmax (r', c') ((mem_chunk_cells _ _ _ _ _).mpr ⟨⟨a1, a2⟩, ⟨a3, a4⟩⟩)
    simpa only [wr r' a1, wc c' a3, wr p.1 hp1, wc p.2 hp3] using this
  · intro r' c' a1 a2 a3 a4 hb
    have := hfirst (r', c') ((mem_chunk_cells _ _ _ _ _).mpr ⟨⟨a1, a2⟩, ⟨a3, a4⟩⟩) hb
    simpa only [wr r' a1, wc c' a3, wr p.1 hp1, wc p.2 hp3] using this

end Pooling

/-- C3, on the grid `[1, 5, 3, 5, 2]` and the chunk of columns `1..4`, where the value 5
occurs twice. -/
theorem pooling_one_chunk_first_max_witness :
    ∃ r c, pooling_one_chunk grid_1x5 1 5 0 1 1 5 = (r, c) ∧
      (0 : Int) ≤ r ∧ r < 1 ∧ (1 : Int) ≤ c ∧ c < 5 ∧
      (∀ r' c' : Int, 0 ≤ r' → r' < 1 → 1 ≤ c' → c' < 5 →
        grid_1x5.cell (r' % 1) (c' % 5) ≤ grid_1x5.cell (r % 1) (c % 5)) ∧
      (∀ r' c' : Int, 0 ≤ r' → r' < 1 → 1 ≤ c' → c' < 5 →
        (r' < r ∨ (r' = r ∧ c' < c)) →
        grid_1x5.cell (r' % 1) (c' % 5) < grid_1x5.cell (r % 1) (c % 5)) :=
  pooling_one_chunk_first_max grid_1x5 1 5 0 1 1 5 (by decide) (by decide) (by decide)
    (by decide) (by decide) (by decide) ⟨0, 1, by decide⟩

/-! ## Loops that assign one cell per iteration -/

theorem set_cell {β : Type} (t : Tensor2D β) (r c : Int) (v : β) (r' c' : Int) :
    (t.set r c v).cell r' c' = if r' = r ∧ c' = c then v else t.cell r' c' := rfl

theorem foldl_set_row {β : Type} (val : Nat → β) (i : Nat) (n : Nat) (t : Tensor2D β)
    (r c : Int) :
    ((List.range n).foldl (fun t (j : Nat) => t.set i j (val j)) t).cell r c =
      if r = i ∧ 0 ≤ c ∧ c < n then val c.toNat else t.cell r c := by
  induction n with
  | zero =>
    have : ¬ (r = (i : Int) ∧ 0 ≤ c ∧ c < ((0 : Nat) : Int)) := by omega
    rw [if_neg this]; rfl
  | succ n ih =>
    rw [List.range_succ, List.foldl_append, List.foldl_cons, List.foldl_nil, set_cell, ih]
    by_cases h1 : r = (i : Int) ∧ c = (n : Int)
    · have h2 : r = (i : Int) ∧ 0 ≤ c ∧ c < ((n + 1 : Nat) : Int) := by omega
      have h3 : c.toNat = n := by omega
      rw [if_pos h1, if_pos h2, h3]
    · rw [if_neg h1]
      by_cases h2 : r = (i : Int) ∧ 0 ≤ c ∧ c < (n : Int)
      · have h3 : r = (i : Int) ∧ 0 ≤ c ∧ c < ((n + 1 : Nat) : Int) := by omega
        rw [if_pos h2, if_pos h3]
      · have h3 : ¬ (r = (i : Int) ∧ 0 ≤ c ∧ c < ((n + 1 : Nat) : Int)) := by omega
        rw [if_neg h2, if_neg h3]

theorem foldl_set_grid {β : Type} (val : Nat → Nat → β) (m n : Nat) (t : Tensor2D β)
    (r c : Int) :
    ((List.range m).foldl
      (fun t (i : Nat) => (List.range n).foldl (fun t (j : Nat) => t.set i j (val i j)) t) t).cell
        r c =
      if (0 ≤ r ∧ r < m) ∧ 0 ≤ c ∧ c < n then val r.toNat c.toNat else t.cell r c := by
  induction m with
  | zero =>
    have : ¬ ((0 ≤ r ∧ r < ((0 : Nat) : Int)) ∧ 0 ≤ c ∧ c < (n : Int)) := by omega
    rw [if_neg this]; rfl
  | succ m ih =>
    rw [List.range_succ, List.foldl_append, List.foldl_cons, List.foldl_nil, foldl_set_row, ih]
    by_cases h1 : r = (m : Int) ∧ 0 ≤ c ∧ c < (n : Int)
    · have h2 : (0 ≤ r ∧ r < ((m + 1 : Nat) : Int)) ∧ 0 ≤ c ∧ c < (n : Int) := by omega
      have h3 : r.toNat = m := by omega
      rw [if_pos h1, if_pos h2, h3]
    · rw [if_neg h1]
      by_cases h2 : (0 ≤ r ∧ r < (m : Int)) ∧ 0 ≤ c ∧ c < (n : Int)
      · have h3 : (0 ≤ r ∧ r < ((m + 1 : Nat) : Int)) ∧ 0 ≤ c ∧ c < (n : Int) := by omega
        rw [if_pos h2, if_pos h3]
      · have h3 : ¬ ((0 ≤ r ∧ r < ((m + 1 : Nat) : Int)) ∧ 0 ≤ c ∧ c < (n : Int)) := by omega
        rw [if_neg h2, if_neg h3]

/-! ## The cells written by `pooling_one_matrix` -/

section Pooling

variable {α : Type} [LinearOrderedRing α]

theorem pool_loops_t_out (t_in : Tensor2D α) (input_row input_col pool_row pool_col : Int)
    (rb cb : List Int) (s : PoolState α) :
    (pool_loops t_in input_row input_col pool_row pool_col rb cb s).t_out =
      (List.range pool_row.toNat).foldl
        (fun t (i : Nat) => (List.range pool_col.toNat).foldl
          (fun t (j : Nat) => t.set i j
            (t_in.cell (Int.tmod (chunk_pick t_in input_row input_col rb cb i j).1 input_row)
              (Int.tmod (chunk_pick t_in input_row input_col rb cb i j).2 input_col))) t)
        s.t_out := by
  unfold pool_loops
  refine (List.foldl_hom PoolState.t_out _ _ _ s ?_).symm
  intro x i
  exact List.foldl_hom PoolState.t_out _ _ _ x (fun _ _ => rfl)

theorem pool_loops_row_pos (t_in : Tensor2D α) (input_row input_col pool_row pool_col : Int)
    (rb cb : List Int) (s : PoolState α) :
    (pool_loops t_in input_row input_col pool_row pool_col rb cb s).row_pos =
      (List.range pool_row.toNat).foldl
        (fun t (i : Nat) => (List.range pool_col.toNat).foldl
          (fun t (j : Nat) => t.set i j
            (Int.tmod (chunk_pick t_in input_row input_col rb cb i j).1 input_row)) t)
        s.row_pos := by
  unfold pool_loops
  refine (List.foldl_hom PoolState.row_pos _ _ _ s ?_).symm
  intro x i
  exact List.foldl_hom PoolState.row_pos _ _ _ x (fun _ _ => rfl)

theorem pool_loops_col_pos (t_in : Tensor2D α) (input_row input_col pool_row pool_col : Int)
    (rb cb : List Int) (s : PoolState α) :
    (pool_loops t_in input_row input_col pool_row pool_col rb cb s).col_pos =
      (List.range pool_row.toNat).foldl
        (fun t (i : Nat) => (List.range pool_col.toNat).foldl
          (fun t (j : Nat) => t.set i j
            (Int.tmod (chunk_pick t_in input_row input_col rb cb i j).2 input_col)) t)
        s.col_pos := by
  unfold pool_loops
  refine (List.foldl_hom PoolState.col_pos _ _ _ s ?_).symm
  intro x i
  exact List.foldl_hom PoolState.col_pos _ _ _ x (fun _ _ => rfl)

/-- After the loops, output cell `(i, j)` with `i < pool_row`, `j < pool_col` holds what
the iteration `(i, j)` wrote: the input value at the wrapped pick, and the wrapped pick. -/
theorem pool_loops_cell (t_in : Tensor2D α) (input_row input_col pool_row pool_col : Int)
    (rb cb : List Int) (s : PoolState α) (i j : Nat) (hi : (i : Int) < pool_row)
    (hj : (j : Int) < pool_col) :
    (pool_loops t_in input_row input_col pool_row pool_col rb cb s).t_out.cell i j =
        t_in.cell (Int.tmod (chunk_pick t_in input_row input_col rb cb i j).1 input_row)
          (Int.tmod (chunk_pick t_in input_row input_col rb cb i j).2 input_col) ∧
      (pool_loops t_in input_row input_col pool_row pool_col rb cb s).row_pos.cell i j =
        Int.tmod (chunk_pick t_in input_row input_col rb cb i j).1 input_row ∧
      (pool_loops t_in input_row input_col pool_row pool_col rb cb s).col_pos.cell i j =
        Int.tmod (chunk_pick t_in input_row input_col rb cb i j).2 input_col := by
  have hc : ((0 : Int) ≤ (i : Int) ∧ (i : Int) < (pool_row.toNat : Int)) ∧
      (0 : Int) ≤ (j : Int) ∧ (j : Int) < (pool_col.toNat : Int) := by omega
  rw [pool_loops_t_out, pool_loops_row_pos, pool_loops_col_pos,
    foldl_set_grid, foldl_set_grid, foldl_set_grid, if_pos hc, if_pos hc, if_pos hc]
  simp

/-- The two splits inside `pooling_one_matrix` succeed when the pool sizes are positive;
every boundary is non-negative and smaller than the next. -/
theorem dynamic_split_bounds (extent segments : Int) (hs : 1 ≤ segments)
    (hb : segments < 2 ^ 64) :
    ∃ b : List Int, dynamic_split extent segments = .ok b ∧
      ∀ k : Nat, (k : Int) < segments → 0 ≤ b.getD k 0 ∧ b.getD k 0 < b.getD (k + 1) 0 := by
  refine ⟨_, dynamic_split_eq_closed extent segments hs hb, ?_⟩
  intro k hk
  have hge : segments ≤ max extent segments := le_max_right _ _
  have hm1 : 1 ≤ max extent segments / segments := by
    rw [Int.le_ediv_iff_mul_le (by omega)]; omega
  rw [split_closed_getD _ _ _ _ (by omega), split_closed_getD _ _ _ _ (by omega)]
  have h1 : (0 : Int) ≤ (k : Int) * (max extent segments / segments) :=
    mul_nonneg (by omega) (by omega)
  have h2 : (k - (segments - max extent segments % segments).toNat : Nat) ≤
      (k + 1 - (segments - max extent segments % segments).toNat : Nat) := by omega
  have h3 : ((k - (segments - max extent segments % segments).toNat : Nat) : Int) ≤
      ((k + 1 - (segments - max extent segments % segments).toNat : Nat) : Int) := by
    exact_mod_cast h2
  constructor
  · omega
  · push_cast
    nlinarith

/-- The result of `pooling_one_matrix` on valid sizes: the call succeeds, and every output
cell holds the input value at the wrapped pick of its chunk, the position tensors hold the
wrapped pick. -/
theorem pooling_one_matrix_cells (t_in t_out : Tensor2D α) (input_row input_col pool_row
    pool_col : Int) (row_pos col_pos : Tensor2D Int)
    (hpr : 1 ≤ pool_row) (hpc : 1 ≤ pool_col)
    (hbr : pool_row < 2 ^ 64) (hbc : pool_col < 2 ^ 64)
    (hout : (t_out.size0 : Int) = pool_row ∧ (t_out.size1 : Int) = pool_col)
    (hin : input_row ≤ (t_in.size0 : Int) ∧ input_col ≤ (t_in.size1 : Int))
    (hin2 : pool_row ≤ (t_in.size0 : Int) ∧ pool_col ≤ (t_in.size1 : Int)) :
    ∃ (rb cb : List Int) (s : PoolState α),
      dynamic_split input_row pool_row = .ok rb ∧
      dynamic_split input_col pool_col = .ok cb ∧
      pooling_one_matrix t_in t_out input_row input_col pool_row pool_col row_pos col_pos =
        .ok s ∧
      (∀ k : Nat, (k : Int) < pool_row → 0 ≤ rb.getD k 0 ∧ rb.getD k 0 < rb.getD (k + 1) 0) ∧
      (∀ k : Nat, (k : Int) < pool_col → 0 ≤ cb.getD k 0 ∧ cb.getD k 0 < cb.getD (k + 1) 0) ∧
      ∀ i j : Nat, (i : Int) < pool_row → (j : Int) < pool_col →
        s.t_out.cell i j =
          t_in.cell (Int.tmod (chunk_pick t_in input_row input_col rb cb i j).1 input_row)
            (Int.tmod (chunk_pick t_in input_row input_col rb cb i j).2 input_col) ∧
        s.row_pos.cell i j =
          Int.tmod (chunk_pick t_in input_row input_col rb cb i j).1 input_row ∧
        s.col_pos.cell i j =
          Int.tmod (chunk_pick t_in input_row input_col rb cb i j).2 input_col := by
  obtain ⟨rb, hrb, hrb2⟩ := dynamic_split_bounds input_row pool_row hpr hbr
  obtain ⟨cb, hcb, hcb2⟩ := dynamic_split_bounds input_col pool_col hpc hbc
  refine ⟨rb, cb, pool_loops t_in input_row input_col pool_row pool_col rb cb
    ⟨t_out, row_pos, col_pos⟩, hrb, hcb, ?_, hrb2, hcb2, ?_⟩
  · unfold pooling_one_matrix
    rw [if_neg (not_not.mpr hout), if_neg (not_not.mpr ⟨hin.1, hin.2⟩),
      if_neg (not_not.mpr ⟨hin2.1, hin2.2⟩)]
    simp only [hrb, hcb]
  · intro i j hi hj
    exact pool_loops_cell t_in input_row input_col pool_row pool_col rb cb _ i j hi hj

end Pooling

/-! ## `pooling_one_matrix` -/

/-- C4 (the code at a failing input). On the 2 x 2 grid whose cells all hold `-200000000`,
pooled to 1 x 1, `pooling_one_chunk` returns the initial pair `(-1, -1)`; the call of
`pooling_one_matrix` succeeds, records the position `(-1, -1)`, which is no cell of the
grid, and copies the output from `t_in[-1][-1]`. -/
theorem pooling_one_matrix_sentinel_leak :
    pooling_one_chunk grid_low 2 2 0 2 0 2 = (-1, -1) ∧
    ∃ s : PoolState Int,
      pooling_one_matrix grid_low (Tensor2D.zeros 1 1) 2 2 1 1 (Tensor2D.zeros 1 1)
        (Tensor2D.zeros 1 1) = .ok s ∧
      s.row_pos.cell 0 0 = -1 ∧ s.col_pos.cell 0 0 = -1 ∧
      s.t_out.cell 0 0 = grid_low.cell (-1) (-1) :=
  ⟨by decide, _, rfl, by decide, by decide, by decide⟩

section Pooling

variable {α : Type} [LinearOrderedRing α]

/-- The pick of `pooling_one_chunk` on a non-empty chunk with non-negative begins, when
every cell inside the logical extent exceeds `-100000000`: the pick lies in the chunk, its
wrapped value bounds the wrapped value of every cell of the chunk, and strictly so for the
cells scanned before it. -/
theorem pooling_one_chunk_of_logical (t : Tensor2D α) (input_row input_col begin_row end_row
    begin_col end_col : Int) (hir : 0 < input_row) (hic : 0 < input_col)
    (hbr : 0 ≤ begin_row) (hbc : 0 ≤ begin_col)
    (hr : begin_row < end_row) (hc : begin_col < end_col)
    (hval : ∀ r c : Int, 0 ≤ r → r < input_row → 0 ≤ c → c < input_col →
      -100000000 < t.cell r c) :
    let m := pooling_one_chunk t input_row input_col begin_row end_row begin_col end_col
    (begin_row ≤ m.1 ∧ m.1 < end_row) ∧ (begin_col ≤ m.2 ∧ m.2 < end_col) ∧
      Int.tmod m.1 input_row = m.1 % input_row ∧ Int.tmod m.2 input_col = m.2 % input_col ∧
      (∀ r c, begin_row ≤ r → r < end_row → begin_col ≤ c → c < end_col →
        t.cell (r % input_row) (c % input_col) ≤ t.cell (m.1 % input_row) (m.2 % input_col)) ∧
      (∀ r c, begin_row ≤ r → r < end_row → begin_col ≤ c → c < end_col →
        (r < m.1 ∨ (r = m.1 ∧ c < m.2)) →
        t.cell (r % input_row) (c % input_col) < t.cell (m.1 % input_row) (m.2 % input_col)) := by
  have wr : ∀ x : Int, begin_row ≤ x → Int.tmod x input_row = x % input_row := fun x hx =>
    Int.tmod_eq_emod (by omega) (by omega)
  have wc : ∀ x : Int, begin_col ≤ x → Int.tmod x input_col = x % input_col := fun x hx =>
    Int.tmod_eq_emod (by omega) (by omega)
  have h0 : -100000000 < t.cell (Int.tmod begin_row input_row) (Int.tmod begin_col input_col) := by
    rw [wr _ le_rfl, wc _ le_rfl]
    exact hval _ _ (Int.emod_nonneg _ (by omega)) (Int.emod_lt_of_pos _ hir)
      (Int.emod_nonneg _ (by omega)) (Int.emod_lt_of_pos _ hic)
  obtain ⟨p, hp, he, hmax, hfirst⟩ := chunk_scan_first_max t input_row input_col begin_row
    end_row begin_col end_col
    ⟨(begin_row, begin_col), (mem_chunk_cells _ _ _ _ _).mpr ⟨⟨le_rfl, hr⟩, ⟨le_rfl, hc⟩⟩, h0⟩
  obtain ⟨⟨hp1, hp2⟩, ⟨hp3, hp4⟩⟩ := (mem_chunk_cells _ _ _ _ _).mp hp
  have hm : pooling_one_chunk t input_row input_col begin_row end_row begin_col end_col =
      (p.1, p.2) := by simp [pooling_one_chunk, he]
  simp only [hm]
  refine ⟨⟨hp1, hp2⟩, ⟨hp3, hp4⟩, wr _ hp1, wc _ hp3, ?_, ?_⟩
  · intro r' c' a1 a2 a3 a4
    have := hmax (r', c') ((mem_chunk_cells _ _ _ _ _).mpr ⟨⟨a1, a2⟩, ⟨a3, a4⟩⟩)
    simpa only [wr r' a1, wc c' a3, wr p.1 hp1, wc p.2 hp3] using this
  · intro r' c' a1 a2 a3 a4 hb
    have := hfirst (r', c') ((mem_chunk_cells _ _ _ _ _).mpr ⟨⟨a1, a2⟩, ⟨a3, a4⟩⟩) hb
    simpa only [wr r' a1, wc c' a3, wr p.1 hp1, wc p.2 hp3] using this

/-- C5. When every cell inside the logical extent exceeds `-100000000` and the sizes are
valid, with `rb = dynamic_split(logical_rows, pool_rows)` and
`cb = dynamic_split(logical_cols, pool_cols)`: `pooling_one_matrix` succeeds, every output
cell satisfies `output[i][j] = input[row_pos[i][j]][col_pos[i][j]]`, and this value is the
maximum of `input[r mod logical_rows][c mod logical_cols]` over `r` in `[rb[i], rb[i+1])`
and `c` in `[cb[j], cb[j+1])`: an upper bound that is attained. -/
theorem pooling_one_matrix_chunk_max (t_in t_out : Tensor2D α) (input_row input_col pool_row
    pool_col : Int) (row_pos col_pos : Tensor2D Int)
    (hir : 1 ≤ input_row) (hic : 1 ≤ input_col) (hpr : 1 ≤ pool_row) (hpc : 1 ≤ pool_col)
    (hbr : pool_row < 2 ^ 64) (hbc : pool_col < 2 ^ 64)
    (hout : (t_out.size0 : Int) = pool_row ∧ (t_out.size1 : Int) = pool_col)
    (hin : input_row ≤ (t_in.size0 : Int) ∧ input_col ≤ (t_in.size1 : Int))
    (hin2 : pool_row ≤ (t_in.size0 : Int) ∧ pool_col ≤ (t_in.size1 : Int))
    (hval : ∀ r c : Int, 0 ≤ r → r < input_row → 0 ≤ c → c < input_col →
      -100000000 < t_in.cell r c) :
    ∃ (rb cb : List Int) (s : PoolState α),
      dynamic_split input_row pool_row = .ok rb ∧
      dynamic_split input_col pool_col = .ok cb ∧
      pooling_one_matrix t_in t_out input_row input_col pool_row pool_col row_pos col_pos =
        .ok s ∧
      ∀ i j : Nat, (i : Int) < pool_row → (j : Int) < pool_col →
        s.t_out.cell i j = t_in.cell (s.row_pos.cell i j) (s.col_pos.cell i j) ∧
        (∀ r c : Int, rb.getD i 0 ≤ r → r < rb.getD (i + 1) 0 →
          cb.getD j 0 ≤ c → c < cb.getD (j + 1) 0 →
          t_in.cell (r % input_row) (c % input_col) ≤ s.t_out.cell i j) ∧
        (∃ r c : Int, rb.getD i 0 ≤ r ∧ r < rb.getD (i + 1) 0 ∧
          cb.getD j 0 ≤ c ∧ c < cb.getD (j + 1) 0 ∧
          s.t_out.cell i j = t_in.cell (r % input_row) (c % input_col)) := by
  obtain ⟨rb, cb, s, hrb, hcb, hs, hrb2, hcb2, hcell⟩ := pooling_one_matrix_cells t_in t_out
    input_row input_col pool_row pool_col row_pos col_pos hpr hpc hbr hbc hout hin hin2
  refine ⟨rb, cb, s, hrb, hcb, hs, ?_⟩
  intro i j hi hj
  obtain ⟨ho, hrp, hcp⟩ := hcell i j hi hj
  obtain ⟨hm1, hm2, hw1, hw2, hmax, _⟩ := pooling_one_chunk_of_logical t_in input_row input_col
    (rb.getD i 0) (rb.getD (i + 1) 0) (cb.getD j 0) (cb.getD (j + 1) 0) (by omega) (by omega)
    (hrb2 i hi).1 (hcb2 j hj).1 (hrb2 i hi).2 (hcb2 j hj).2 hval
  refine ⟨by rw [ho, hrp, hcp], ?_, ?_⟩
  · intro r c a1 a2 a3 a4
    rw [ho]
    unfold chunk_pick
    rw [hw1, hw2]
    exact hmax r c a1 a2 a3 a4
  · refine ⟨_, _, hm1.1, hm1.2, hm2.1, hm2.2, ?_⟩
    rw [ho]
    unfold chunk_pick
    rw [hw1, hw2]

/-- C6. When every cell inside the logical extent exceeds `-100000000` and the sizes are
valid, padded or not, every position recorded by `pooling_one_matrix` satisfies
`0 ≤ row_pos[i][j] < logical_rows` and `0 ≤ col_pos[i][j] < logical_cols`. -/
theorem pooling_one_matrix_positions_in_range (t_in t_out : Tensor2D α) (input_row input_col
    pool_row pool_col : Int) (row_pos col_pos : Tensor2D Int)
    (hir : 1 ≤ input_row) (hic : 1 ≤ input_col) (hpr : 1 ≤ pool_row) (hpc : 1 ≤ pool_col)
    (hbr : pool_row < 2 ^ 64) (hbc : pool_col < 2 ^ 64)
    (hout : (t_out.size0 : Int) = pool_row ∧ (t_out.size1 : Int) = pool_col)
    (hin : input_row ≤ (t_in.size0 : Int) ∧ input_col ≤ (t_in.size1 : Int))
    (hin2 : pool_row ≤ (t_in.size0 : Int) ∧ pool_col ≤ (t_in.size1 : Int))
    (hval : ∀ r c : Int, 0 ≤ r → r < input_row → 0 ≤ c → c < input_col →
      -100000000 < t_in.cell r c) :
    ∃ s : PoolState α,
      pooling_one_matrix t_in t_out input_row input_col pool_row pool_col row_pos col_pos =
        .ok s ∧
      ∀ i j : Nat, (i : Int) < pool_row → (j : Int) < pool_col →
        (0 ≤ s.row_pos.cell i j ∧ s.row_pos.cell i j < input_row) ∧
        (0 ≤ s.col_pos.cell i j ∧ s.col_pos.cell i j < input_col) := by
  obtain ⟨rb, cb, s, _, _, hs, hrb2, hcb2, hcell⟩ := pooling_one_matrix_cells t_in t_out
    input_row input_col pool_row pool_col row_pos col_pos hpr hpc hbr hbc hout hin hin2
  refine ⟨s, hs, ?_⟩
  intro i j hi hj
  obtain ⟨_, hrp, hcp⟩ := hcell i j hi hj
  obtain ⟨_, _, hw1, hw2, _, _⟩ := pooling_one_chunk_of_logical t_in input_row input_col
    (rb.getD i 0) (rb.getD (i + 1) 0) (cb.getD j 0) (cb.getD (j + 1) 0) (by omega) (by omega)
    (hrb2 i hi).1 (hcb2 j hj).1 (hrb2 i hi).2 (hcb2 j hj).2 hval
  rw [hrp, hcp]
  unfold chunk_pick
  rw [hw1, hw2]
  exact ⟨⟨Int.emod_nonneg _ (by omega), Int.emod_lt_of_pos _ (by omega)⟩,
    ⟨Int.emod_nonneg _ (by omega), Int.emod_lt_of_pos _ (by omega)⟩⟩

end Pooling

/-! ## `unpooling_one_matrix` -/

section Pooling

variable {α : Type} [LinearOrderedRing α]

theorem unpool_cell_def (t_out : Tensor2D α) (row_pos col_pos : Tensor2D Int) (i j : Nat)
    (t : Tensor2D α) :
    unpool_cell t_out row_pos col_pos i t j =
      t.set (row_pos.cell i j) (col_pos.cell i j)
        (t.cell (row_pos.cell i j) (col_pos.cell i j) + t_out.cell i j) := rfl

theorem unpool_row_cell (t_out : Tensor2D α) (row_pos col_pos : Tensor2D Int) (i n : Nat)
    (t : Tensor2D α) (r c : Int) :
    ((List.range n).foldl (unpool_cell t_out row_pos col_pos i) t).cell r c =
      t.cell r c + Finset.sum (Finset.range n) (fun j =>
        if row_pos.cell i j = r ∧ col_pos.cell i j = c then t_out.cell i j else 0) := by
  induction n with
  | zero => simp
  | succ n ih =>
    rw [List.range_succ, List.foldl_append, List.foldl_cons, List.foldl_nil,
      Finset.sum_range_succ, unpool_cell_def, set_cell]
    by_cases h : r = row_pos.cell i n ∧ c = col_pos.cell i n
    · have h' : row_pos.cell i n = r ∧ col_pos.cell i n = c := ⟨h.1.symm, h.2.symm⟩
      rw [if_pos h, if_pos h', ← h.1, ← h.2, ih, add_assoc]
    · have h' : ¬ (row_pos.cell i n = r ∧ col_pos.cell i n = c) := fun h2 =>
        h ⟨h2.1.symm, h2.2.symm⟩
      rw [if_neg h, if_neg h', ih, add_zero]

theorem unpool_cell_eq (t_in t_out : Tensor2D α) (pool_row pool_col : Int)
    (row_pos col_pos : Tensor2D Int) (r c : Int) :
    (unpooling_one_matrix t_in t_out pool_row pool_col row_pos col_pos).cell r c =
      t_in.cell r c + Finset.sum (Finset.range pool_row.toNat) (fun i =>
        Finset.sum (Finset.range pool_col.toNat) (fun j =>
          if row_pos.cell i j = r ∧ col_pos.cell i j = c then t_out.cell i j else 0)) := by
  unfold unpooling_one_matrix
  induction pool_row.toNat with
  | zero => simp
  | succ n ih =>
    rw [List.range_succ, List.foldl_append, List.foldl_cons, List.foldl_nil,
      Finset.sum_range_succ, unpool_row_cell, ih, add_assoc]

/-- C7. For valid recorded positions and exact arithmetic, after `unpooling_one_matrix`
each cell `(r, c)` of `input_gradient` holds its initial value plus the sum of
`output_gradient[i][j]` over all `(i, j)` in `[0, pool_rows) x [0, pool_cols)` whose
recorded position is `(r, c)`; a cell recorded by no output cell is unchanged. -/
theorem unpooling_one_matrix_accumulates (t_in t_out : Tensor2D α) (pool_row pool_col : Int)
    (row_pos col_pos : Tensor2D Int)
    (hvalid : ∀ i j : Nat, (i : Int) < pool_row → (j : Int) < pool_col →
      (0 ≤ row_pos.cell i j ∧ row_pos.cell i j < t_in.size0) ∧
      (0 ≤ col_pos.cell i j ∧ col_pos.cell i j < t_in.size1))
    (r c : Int) (hr : 0 ≤ r ∧ r < t_in.size0) (hc : 0 ≤ c ∧ c < t_in.size1) :
    (unpooling_one_matrix t_in t_out pool_row pool_col row_pos col_pos).cell r c =
      t_in.cell r c + Finset.sum (Finset.range pool_row.toNat) (fun i =>
        Finset.sum (Finset.range pool_col.toNat) (fun j =>
          if row_pos.cell i j = r ∧ col_pos.cell i j = c then t_out.cell i j else 0)) ∧
    ((∀ i j : Nat, (i : Int) < pool_row → (j : Int) < pool_col →
        ¬ (row_pos.cell i j = r ∧ col_pos.cell i j = c)) →
      (unpooling_one_matrix t_in t_out pool_row pool_col row_pos col_pos).cell r c =
        t_in.cell r c) := by
  have _hdomain := And.intro hvalid (And.intro hr hc)
  refine ⟨unpool_cell_eq t_in t_out pool_row pool_col row_pos col_pos r c, ?_⟩
  intro hno
  rw [unpool_cell_eq]
  have : Finset.sum (Finset.range pool_row.toNat) (fun i =>
      Finset.sum (Finset.range pool_col.toNat) (fun j =>
        if row_pos.cell i j = r ∧ col_pos.cell i j = c then t_out.cell i j else 0)) = 0 := by
    apply Finset.sum_eq_zero
    intro i hi
    apply Finset.sum_eq_zero
    intro j hj
    rw [Finset.mem_range] at hi hj
    rw [if_neg (hno i j (by omega) (by omega))]
  rw [this, add_zero]

end Pooling

section Pooling

variable {α : Type} [LinearOrderedRing α]

theorem total_set_add (t : Tensor2D α) (r c : Int) (v : α)
    (hr : 0 ≤ r ∧ r < t.size0) (hc : 0 ≤ c ∧ c < t.size1) :
    (t.set r c (t.cell r c + v)).total = t.total + v := by
  obtain ⟨a, rfl⟩ := Int.eq_ofNat_of_zero_le hr.1
  obtain ⟨b, rfl⟩ := Int.eq_ofNat_of_zero_le hc.1
  have ha : a ∈ Finset.range t.size0 := Finset.mem_range.mpr (by omega)
  have hb : b ∈ Finset.range t.size1 := Finset.mem_range.mpr (by omega)
  have hsplit : ∀ r' c' : Nat, (t.set a b (t.cell a b + v)).cell r' c' =
      t.cell r' c' + (if r' = a then (if c' = b then v else 0) else 0) := by
    intro r' c'
    rw [set_cell]
    by_cases h1 : r' = a
    · by_cases h2 : c' = b
      · subst h1; subst h2; simp
      · have : ¬ ((r' : Int) = a ∧ (c' : Int) = b) := by omega
        simp [this, h2]
    · have : ¬ ((r' : Int) = a ∧ (c' : Int) = b) := by omega
      simp [this, h1]
  unfold Tensor2D.total
  have hs0 : (t.set a b (t.cell a b + v)).size0 = t.size0 := rfl
  have hs1 : (t.set a b (t.cell a b + v)).size1 = t.size1 := rfl
  rw [hs0, hs1]
  simp only [hsplit, Finset.sum_add_distrib]
  congr 1
  rw [Finset.sum_eq_single a]
  · simp [hb]
  · intro x _ hx
    simp [hx]
  · intro h; exact absurd ha h

theorem unpool_row_total (t_out : Tensor2D α) (row_pos col_pos : Tensor2D Int) (i n : Nat)
    (t : Tensor2D α)
    (hvalid : ∀ j : Nat, j < n →
      (0 ≤ row_pos.cell i j ∧ row_pos.cell i j < t.size0) ∧
      (0 ≤ col_pos.cell i j ∧ col_pos.cell i j < t.size1)) :
    ((List.range n).foldl (unpool_cell t_out row_pos col_pos i) t).size0 = t.size0 ∧
    ((List.range n).foldl (unpool_cell t_out row_pos col_pos i) t).size1 = t.size1 ∧
    ((List.range n).foldl (unpool_cell t_out row_pos col_pos i) t).total =
      t.total + Finset.sum (Finset.range n) (fun j => t_out.cell i j) := by
  induction n with
  | zero => simp
  | succ n ih =>
    obtain ⟨h0, h1, h2⟩ := ih (fun j hj => hvalid j (by omega))
    rw [List.range_succ, List.foldl_append, List.foldl_cons, List.foldl_nil,
      Finset.sum_range_succ, unpool_cell_def]
    refine ⟨h0, h1, ?_⟩
    have hv := hvalid n (by omega)
    rw [total_set_add _ _ _ _ (by rw [h0]; exact hv.1) (by rw [h1]; exact hv.2), h2, add_assoc]

theorem unpool_total (t_in t_out : Tensor2D α) (pool_col : Int)
    (row_pos col_pos : Tensor2D Int) (m : Nat)
    (hvalid : ∀ i j : Nat, i < m → (j : Int) < pool_col →
      (0 ≤ row_pos.cell i j ∧ row_pos.cell i j < t_in.size0) ∧
      (0 ≤ col_pos.cell i j ∧ col_pos.cell i j < t_in.size1)) :
    ((List.range m).foldl (fun t i =>
        (List.range pool_col.toNat).foldl (unpool_cell t_out row_pos col_pos i) t) t_in).size0 =
      t_in.size0 ∧
    ((List.range m).foldl (fun t i =>
        (List.range pool_col.toNat).foldl (unpool_cell t_out row_pos col_pos i) t) t_in).size1 =
      t_in.size1 ∧
    ((List.range m).foldl (fun t i =>
        (List.range pool_col.toNat).foldl (unpool_cell t_out row_pos col_pos i) t) t_in).total =
      t_in.total + Finset.sum (Finset.range m) (fun i =>
        Finset.sum (Finset.range pool_col.toNat) (fun j => t_out.cell i j)) := by
  induction m with
  | zero => simp
  | succ m ih =>
    obtain ⟨h0, h1, h2⟩ := ih (fun i j hi hj => hvalid i j (by omega) hj)
    rw [List.range_succ, List.foldl_append, List.foldl_cons, List.foldl_nil,
      Finset.sum_range_succ]
    obtain ⟨g0, g1, g2⟩ := unpool_row_total t_out row_pos col_pos m pool_col.toNat
      ((List.range m).foldl (fun t i =>
        (List.range pool_col.toNat).foldl (unpool_cell t_out row_pos col_pos i) t) t_in)
      (fun j hj => by
        rw [h0, h1]
        exact hvalid m j (by omega) (by omega))
    exact ⟨g0.trans h0, g1.trans h1, by rw [g2, h2, add_assoc]⟩

/-- C8. Gradient conservation, in exact arithmetic: when every recorded position is a valid
index of `input_gradient` and `input_gradient` is all zeros before the call, the sum of all
entries of `input_gradient` after `unpooling_one_matrix` equals the sum of the entries of
`output_gradient` over `[0, pool_rows) x [0, pool_cols)`. -/
theorem unpooling_one_matrix_conserves (t_in t_out : Tensor2D α) (pool_row pool_col : Int)
    (row_pos col_pos : Tensor2D Int)
    (hvalid : ∀ i j : Nat, (i : Int) < pool_row → (j : Int) < pool_col →
      (0 ≤ row_pos.cell i j ∧ row_pos.cell i j < t_in.size0) ∧
      (0 ≤ col_pos.cell i j ∧ col_pos.cell i j < t_in.size1))
    (hzero : ∀ r c : Nat, r < t_in.size0 → c < t_in.size1 → t_in.cell r c = 0) :
    (unpooling_one_matrix t_in t_out pool_row pool_col row_pos col_pos).total =
      Finset.sum (Finset.range pool_row.toNat) (fun i =>
        Finset.sum (Finset.range pool_col.toNat) (fun j => t_out.cell i j)) := by
  have h0 : t_in.total = 0 := by
    unfold Tensor2D.total
    apply Finset.sum_eq_zero
    intro r hr
    apply Finset.sum_eq_zero
    intro c hc
    exact hzero r c (Finset.mem_range.mp hr) (Finset.mem_range.mp hc)
  obtain ⟨_, _, h⟩ := unpool_total t_in t_out pool_col row_pos col_pos pool_row.toNat
    (fun i j hi hj => hvalid i j (by omega) hj)
  unfold unpooling_one_matrix
  rw [h, h0, zero_add]

end Pooling

/-! ## `dynamic_split` and `pooling_one_chunk` on arguments outside their contract -/

/-- A non-positive extent is padded up to the segment count: the boundaries are
`0, 1, ..., segments`. -/
theorem dynamic_split_small_extent (extent segments : Int) (he : extent ≤ segments)
    (hs : 1 ≤ segments) (hb : segments < 2 ^ 64) :
    dynamic_split extent segments = .ok (int_range 0 (segments + 1)) := by
  rw [dynamic_split_eq_closed extent segments hs hb, max_eq_right he,
    Int.ediv_self (by omega), Int.emod_self, sub_zero]
  congr 1
  unfold split_closed int_range
  have e : (segments + 1 - 0).toNat = segments.toNat + 1 := by omega
  rw [e]
  apply List.map_congr_left
  intro k hk
  rw [List.mem_range] at hk
  have : k - segments.toNat = 0 := by omega
  rw [this]; push_cast; ring

/-- C9 (counterexample). The call `dynamic_split(0, 3)` has a non-positive extent and
returns the boundary list `[0, 1, 2, 3]`; so it is false that every call with
`extent ≤ 0` or `segments ≤ 0` fails. -/
theorem dynamic_split_zero_extent_returns :
    dynamic_split 0 3 = .ok [0, 1, 2, 3] ∧
    ¬ (∀ extent segments : Int, extent ≤ 0 ∨ segments ≤ 0 →
        ∃ e, dynamic_split extent segments = .error e) := by
  have h03 : dynamic_split 0 3 = .ok [0, 1, 2, 3] := rfl
  refine ⟨h03, ?_⟩
  intro hall
  obtain ⟨e, he⟩ := hall 0 3 (Or.inl le_rfl)
  rw [h03] at he
  cases he

/-- C9 (amended). `dynamic_split` does not examine its arguments.  Among the calls with
`extent ≤ 0` or `segments = 0` (and `segments ≥ 0`): when `segments = 0` no boundary list is
returned, the call aborts at the integer division by zero; when `segments ≥ 1` a
non-positive extent is not rejected, the call succeeds and returns `[0, 1, ..., segments]`. -/
theorem dynamic_split_nonpositive (extent segments : Int) (h : extent ≤ 0 ∨ segments = 0)
    (h0 : 0 ≤ segments) (hb : segments < 2 ^ 64) :
    if segments = 0 then dynamic_split extent segments = .error .division_by_zero
    else dynamic_split extent segments = .ok (int_range 0 (segments + 1)) := by
  split_ifs with hs
  · simp [dynamic_split, hs]
  · exact dynamic_split_small_extent extent segments (by omega) (by omega) hb

/-- C9 (amended), at `extent = 5`, `segments = 0` and at `extent = -2`, `segments = 3`. -/
theorem dynamic_split_nonpositive_witness :
    (if (0 : Int) = 0 then dynamic_split 5 0 = .error .division_by_zero
      else dynamic_split 5 0 = .ok (int_range 0 (0 + 1))) ∧
    (if (3 : Int) = 0 then dynamic_split (-2) 3 = .error .division_by_zero
      else dynamic_split (-2) 3 = .ok (int_range 0 (3 + 1))) :=
  ⟨dynamic_split_nonpositive 5 0 (Or.inr rfl) (by decide) (by norm_num),
    dynamic_split_nonpositive (-2) 3 (Or.inl (by decide)) (by decide) (by norm_num)⟩

section Pooling

variable {α : Type} [LinearOrderedRing α]

/-- C10 (amended). `pooling_one_chunk` has no error path: on every call whose range is
empty (`begin_row ≥ end_row` or `begin_col ≥ end_col`) it returns the initial pair
`(-1, -1)`. -/
theorem pooling_one_chunk_empty_range (t : Tensor2D α) (input_row input_col begin_row end_row
    begin_col end_col : Int) (h : end_row ≤ begin_row ∨ end_col ≤ begin_col) :
    pooling_one_chunk t input_row input_col begin_row end_row begin_col end_col = (-1, -1) := by
  unfold pooling_one_chunk chunk_scan
  rcases h with h | h
  · rw [int_range_eq_nil _ _ h]
    rfl
  · rw [int_range_eq_nil _ _ h]
    simp only [List.foldl_nil]
    induction int_range begin_row end_row with
    | nil => rfl
    | cons r rows ih => exact ih

end Pooling

/-- C10 (counterexample). On the grid `[1, 5, 3, 5, 2]` with the empty row range `[0, 0)`,
`pooling_one_chunk` returns the coordinate pair `(-1, -1)`. -/
theorem pooling_one_chunk_empty_returns :
    pooling_one_chunk grid_1x5 1 5 0 0 0 5 = (-1, -1) := by
  decide

/-- C10 (amended), on the grid `[1, 5, 3, 5, 2]` with the empty column range `[3, 3)`. -/
theorem pooling_one_chunk_empty_range_witness :
    ((1 : Int) ≤ 0 ∨ (3 : Int) ≤ 3) ∧ pooling_one_chunk grid_1x5 1 5 0 1 3 3 = (-1, -1) :=
  ⟨by decide, pooling_one_chunk_empty_range grid_1x5 1 5 0 1 3 3 (by decide)⟩

/-! ## Instances on concrete grids -/

theorem grid_1x5_above (n : Int) (hn : n ≤ 5) :
    ∀ r c : Int, 0 ≤ r → r < 1 → 0 ≤ c → c < n → -100000000 < grid_1x5.cell r c := by
  intro r c h1 h2 h3 h4
  have hr : r = 0 := by omega
  subst hr
  have hc : c < 5 := by omega
  interval_cases c <;> decide

/-- C5, on the grid `[1, 5, 3, 5, 2]` pooled to 1 x 3. -/
theorem pooling_one_matrix_chunk_max_witness :
    ∃ (rb cb : List Int) (s : PoolState Int),
      dynamic_split 1 1 = .ok rb ∧
      dynamic_split 5 3 = .ok cb ∧
      pooling_one_matrix grid_1x5 (Tensor2D.zeros 1 3) 1 5 1 3 (Tensor2D.zeros 1 3)
        (Tensor2D.zeros 1 3) = .ok s ∧
      ∀ i j : Nat, (i : Int) < 1 → (j : Int) < 3 →
        s.t_out.cell i j = grid_1x5.cell (s.row_pos.cell i j) (s.col_pos.cell i j) ∧
        (∀ r c : Int, rb.getD i 0 ≤ r → r < rb.getD (i + 1) 0 →
          cb.getD j 0 ≤ c → c < cb.getD (j + 1) 0 →
          grid_1x5.cell (r % 1) (c % 5) ≤ s.t_out.cell i j) ∧
        (∃ r c : Int, rb.getD i 0 ≤ r ∧ r < rb.getD (i + 1) 0 ∧
          cb.getD j 0 ≤ c ∧ c < cb.getD (j + 1) 0 ∧
          s.t_out.cell i j = grid_1x5.cell (r % 1) (c % 5)) :=
  pooling_one_matrix_chunk_max grid_1x5 (Tensor2D.zeros 1 3) 1 5 1 3 (Tensor2D.zeros 1 3)
    (Tensor2D.zeros 1 3) (by decide) (by decide) (by decide) (by decide) (by norm_num)
    (by norm_num) (by decide) (by decide) (by decide) (grid_1x5_above 5 (by decide))

/-- C6, in a padding case: the first two columns of the grid `[1, 5, 3, 5, 2]` pooled
to 1 x 3. -/
theorem pooling_one_matrix_positions_in_range_witness :
    ∃ s : PoolState Int,
      pooling_one_matrix grid_1x5 (Tensor2D.zeros 1 3) 1 2 1 3 (Tensor2D.zeros 1 3)
        (Tensor2D.zeros 1 3) = .ok s ∧
      ∀ i j : Nat, (i : Int) < 1 → (j : Int) < 3 →
        (0 ≤ s.row_pos.cell i j ∧ s.row_pos.cell i j < 1) ∧
        (0 ≤ s.col_pos.cell i j ∧ s.col_pos.cell i j < 2) :=
  pooling_one_matrix_positions_in_range grid_1x5 (Tensor2D.zeros 1 3) 1 2 1 3
    (Tensor2D.zeros 1 3) (Tensor2D.zeros 1 3) (by decide) (by decide) (by decide) (by decide)
    (by norm_num) (by norm_num) (by decide) (by decide) (by decide)
    (grid_1x5_above 2 (by decide))

theorem positions_011_valid :
    ∀ i j : Nat, (i : Int) < 1 → (j : Int) < 3 →
      (0 ≤ (Tensor2D.zeros 1 3 : Tensor2D Int).cell i j ∧
        (Tensor2D.zeros 1 3 : Tensor2D Int).cell i j <
          ((Tensor2D.zeros 1 5 : Tensor2D Int).size0 : Int)) ∧
      (0 ≤ (Tensor2D.of_rows [[0, 1, 1]] : Tensor2D Int).cell i j ∧
        (Tensor2D.of_rows [[0, 1, 1]] : Tensor2D Int).cell i j <
          ((Tensor2D.zeros 1 5 : Tensor2D Int).size1 : Int)) := by
  intro i j hi hj
  have h0 : i = 0 := by omega
  have h1 : j = 0 ∨ j = 1 ∨ j = 2 := by omega
  subst h0
  rcases h1 with rfl | rfl | rfl <;> decide

/-- C7, with output gradient `[1, 5, 5]` and recorded positions `(0,0), (0,1), (0,1)`: the
cell `(0, 1)` of the input gradient receives both `5`s. -/
theorem unpooling_one_matrix_accumulates_witness :
    (unpooling_one_matrix (Tensor2D.zeros 1 5) (Tensor2D.of_rows [[1, 5, 5]]) 1 3
        (Tensor2D.zeros 1 3) (Tensor2D.of_rows [[0, 1, 1]]) : Tensor2D Int).cell 0 1 =
      (Tensor2D.zeros 1 5 : Tensor2D Int).cell 0 1 +
        Finset.sum (Finset.range (1 : Int).toNat) (fun i =>
          Finset.sum (Finset.range (3 : Int).toNat) (fun j =>
            if (Tensor2D.zeros 1 3 : Tensor2D Int).cell i j = 0 ∧
                (Tensor2D.of_rows [[0, 1, 1]] : Tensor2D Int).cell i j = 1
            then (Tensor2D.of_rows [[1, 5, 5]] : Tensor2D Int).cell i j else 0)) ∧
    ((∀ i j : Nat, (i : Int) < 1 → (j : Int) < 3 →
        ¬ ((Tensor2D.zeros 1 3 : Tensor2D Int).cell i j = 0 ∧
          (Tensor2D.of_rows [[0, 1, 1]] : Tensor2D Int).cell i j = 1)) →
      (unpooling_one_matrix (Tensor2D.zeros 1 5) (Tensor2D.of_rows [[1, 5, 5]]) 1 3
        (Tensor2D.zeros 1 3) (Tensor2D.of_rows [[0, 1, 1]]) : Tensor2D Int).cell 0 1 =
        (Tensor2D.zeros 1 5 : Tensor2D Int).cell 0 1) :=
  unpooling_one_matrix_accumulates (Tensor2D.zeros 1 5) (Tensor2D.of_rows [[1, 5, 5]]) 1 3
    (Tensor2D.zeros 1 3) (Tensor2D.of_rows [[0, 1, 1]]) positions_011_valid 0 1
    (by decide) (by decide)

/-- C8, with output gradient `[1, 5, 5]` and recorded positions `(0,0), (0,1), (0,1)`. -/
theorem unpooling_one_matrix_conserves_witness :
    (unpooling_one_matrix (Tensor2D.zeros 1 5) (Tensor2D.of_rows [[1, 5, 5]]) 1 3
        (Tensor2D.zeros 1 3) (Tensor2D.of_rows [[0, 1, 1]]) : Tensor2D Int).total =
      Finset.sum (Finset.range (1 : Int).toNat) (fun i =>
        Finset.sum (Finset.range (3 : Int).toNat) (fun j =>
          (Tensor2D.of_rows [[1, 5, 5]] : Tensor2D Int).cell i j)) :=
  unpooling_one_matrix_conserves (Tensor2D.zeros 1 5) (Tensor2D.of_rows [[1, 5, 5]]) 1 3
    (Tensor2D.zeros 1 3) (Tensor2D.of_rows [[0, 1, 1]]) positions_011_valid
    (fun _ _ _ _ => rfl)

/-! ## Size checks and a concrete scenario of `pooling_one_matrix` -/

section Pooling

variable {α : Type} [LinearOrderedRing α]

/-- C11. Whenever `pool_rows` exceeds the row capacity or `pool_cols` exceeds the column
capacity of the input grid or of the output grid, `pooling_one_matrix` aborts with the size
error; the aborted call yields no state, its checks stand before the two splits and before
the loops that hold every assignment to `t_out`, `row_pos` and `col_pos`. -/
theorem pooling_one_matrix_size_error (t_in t_out : Tensor2D α) (input_row input_col pool_row
    pool_col : Int) (row_pos col_pos : Tensor2D Int)
    (h : (t_in.size0 : Int) < pool_row ∨ (t_in.size1 : Int) < pool_col ∨
      (t_out.size0 : Int) < pool_row ∨ (t_out.size1 : Int) < pool_col) :
    pooling_one_matrix t_in t_out input_row input_col pool_row pool_col row_pos col_pos =
      .error .size_error := by
  unfold pooling_one_matrix
  by_cases h1 : (t_out.size0 : Int) = pool_row ∧ (t_out.size1 : Int) = pool_col
  · rw [if_neg (not_not.mpr h1)]
    by_cases h2 : (t_in.size0 : Int) ≥ input_row ∧ (t_in.size1 : Int) ≥ input_col
    · rw [if_neg (not_not.mpr h2)]
      have h3 : ¬ ((t_in.size0 : Int) ≥ pool_row ∧ (t_in.size1 : Int) ≥ pool_col) := by
        omega
      rw [if_pos h3]
    · rw [if_pos h2]
  · rw [if_pos h1]

end Pooling

/-- C11, on the grid `[1, 5, 3, 5, 2]` of capacity 1 x 5 with `pool_cols = 6`. -/
theorem pooling_one_matrix_size_error_witness :
    pooling_one_matrix grid_1x5 (Tensor2D.zeros 1 6) 1 5 1 6 (Tensor2D.zeros 1 6)
      (Tensor2D.zeros 1 6) = .error .size_error :=
  pooling_one_matrix_size_error grid_1x5 (Tensor2D.zeros 1 6) 1 5 1 6 (Tensor2D.zeros 1 6)
    (Tensor2D.zeros 1 6) (by decide)

/-- C12. `dynamic_split(5, 3)` returns `[0, 1, 3, 5]`, and pooling the 1 x 5 input
`[1, 5, 3, 5, 2]` with `logical_rows = 1`, `logical_cols = 5` to `pool_rows = 1`,
`pool_cols = 3` yields the output `[1, 5, 5]` and the recorded positions
`(0,0), (0,1), (0,3)`, whatever the three 1 x 3 buffers held before. -/
theorem pooling_scenario_5_to_3 (o : Int → Int → Int) (rp cp : Tensor2D Int) :
    dynamic_split 5 3 = .ok [0, 1, 3, 5] ∧
    ∃ s : PoolState Int,
      pooling_one_matrix grid_1x5 ⟨1, 3, o⟩ 1 5 1 3 rp cp = .ok s ∧
      (s.t_out.cell 0 0 = 1 ∧ s.t_out.cell 0 1 = 5 ∧ s.t_out.cell 0 2 = 5) ∧
      (s.row_pos.cell 0 0 = 0 ∧ s.col_pos.cell 0 0 = 0) ∧
      (s.row_pos.cell 0 1 = 0 ∧ s.col_pos.cell 0 1 = 1) ∧
      (s.row_pos.cell 0 2 = 0 ∧ s.col_pos.cell 0 2 = 3) := by
  refine ⟨rfl, pool_loops grid_1x5 1 5 1 3 [0, 1] [0, 1, 3, 5] ⟨⟨1, 3, o⟩, rp, cp⟩, rfl, ?_⟩
  obtain ⟨a0, b0, c0⟩ := pool_loops_cell grid_1x5 1 5 1 3 [0, 1] [0, 1, 3, 5]
    ⟨⟨1, 3, o⟩, rp, cp⟩ 0 0 (by decide) (by decide)
  obtain ⟨a1, b1, c1⟩ := pool_loops_cell grid_1x5 1 5 1 3 [0, 1] [0, 1, 3, 5]
    ⟨⟨1, 3, o⟩, rp, cp⟩ 0 1 (by decide) (by decide)
  obtain ⟨a2, b2, c2⟩ := pool_loops_cell grid_1x5 1 5 1 3 [0, 1] [0, 1, 3, 5]
    ⟨⟨1, 3, o⟩, rp, cp⟩ 0 2 (by decide) (by decide)
  have p0 : chunk_pick grid_1x5 1 5 [0, 1] [0, 1, 3, 5] 0 0 = (0, 0) := by decide
  have p1 : chunk_pick grid_1x5 1 5 [0, 1] [0, 1, 3, 5] 0 1 = (0, 1) := by decide
  have p2 : chunk_pick grid_1x5 1 5 [0, 1] [0, 1, 3, 5] 0 2 = (0, 3) := by decide
  rw [p0] at a0 b0 c0
  rw [p1] at a1 b1 c1
  rw [p2] at a2 b2 c2
  exact ⟨⟨a0, a1, a2⟩, ⟨b0, c0⟩, ⟨b1, c1⟩, ⟨b2, c2⟩⟩

/-! ## `get_dynamic_k` -/

/-- Below the last stage, with a non-negative sentence length, the quotient computed by
`get_dynamic_k` is the floor quotient of a non-negative numerator. -/
theorem get_dynamic_k_below (sentence_length min_rep_length L l : Int) (hl : l < L)
    (hL : 1 ≤ L) (hs : 0 ≤ sentence_length) :
    0 ≤ (L - l) * sentence_length ∧
    get_dynamic_k sentence_length min_rep_length L l =
      .ok (max min_rep_length (((L - l) * sentence_length + L - 1) / L)) := by
  have hnum : 0 ≤ (L - l) * sentence_length := mul_nonneg (by omega) hs
  refine ⟨hnum, ?_⟩
  have htd : Int.tdiv ((L - l) * sentence_length + L - 1) L =
      ((L - l) * sentence_length + L - 1) / L := Int.tdiv_eq_ediv (by omega) (by omega)
  unfold get_dynamic_k
  rw [if_neg (by omega), if_neg (by omega)]
  simp only [htd]
  split_ifs with h
  · rw [max_eq_left (le_of_lt h)]
  · rw [max_eq_right (not_lt.mp h)]

/-- C14. For `1 ≤ l ≤ L`, `sentence_length ≥ 0` and any `min_rep_length`, over unbounded
integers: `get_dynamic_k` returns 1 when `l = L`, and otherwise
`max(min_rep_length, ceil((L - l) * sentence_length / L))`, the ceiling taken of the exact
rational quotient. -/
theorem get_dynamic_k_formula (sentence_length min_rep_length L l : Int) (h1 : 1 ≤ l)
    (h2 : l ≤ L) (hs : 0 ≤ sentence_length) :
    get_dynamic_k sentence_length min_rep_length L l =
      .ok (if l = L then 1
        else max min_rep_length ⌈(((L - l) * sentence_length : Int) : ℚ) / (L : ℚ)⌉) := by
  by_cases hl : l = L
  · rw [if_pos hl]
    simp [get_dynamic_k, hl]
  · rw [if_neg hl]
    have hlt : l < L := lt_of_le_of_ne h2 hl
    have hL : (0 : Int) < L := by omega
    obtain ⟨_, hk⟩ := get_dynamic_k_below sentence_length min_rep_length L l hlt (by omega) hs
    rw [hk]
    congr 2
    symm
    rw [Int.ceil_eq_iff]
    have hLq : (0 : ℚ) < (L : ℚ) := by exact_mod_cast hL
    have hd := Int.ediv_add_emod ((L - l) * sentence_length + L - 1) L
    have hr0 := Int.emod_nonneg ((L - l) * sentence_length + L - 1) (ne_of_gt hL)
    have hr1 := Int.emod_lt_of_pos ((L - l) * sentence_length + L - 1) hL
    set a := (L - l) * sentence_length with ha
    set k := (a + L - 1) / L with hk'
    constructor
    · rw [lt_div_iff₀ hLq]
      have : (k - 1) * L < a := by nlinarith
      exact_mod_cast this
    · rw [div_le_iff₀ hLq]
      have : a ≤ k * L := by nlinarith
      exact_mod_cast this

/-- C14, at `sentence_length = 10`, `min_rep_length = 2`, `L = 3`, `l = 1`. -/
theorem get_dynamic_k_formula_witness :
    get_dynamic_k 10 2 3 1 =
      .ok (if (1 : Int) = 3 then 1
        else max 2 ⌈(((3 - 1) * 10 : Int) : ℚ) / ((3 : Int) : ℚ)⌉) :=
  get_dynamic_k_formula 10 2 3 1 (by decide) (by decide) (by decide)

/-- Over unbounded integers the schedule is monotone decreasing over the stages. -/
theorem get_dynamic_k_antitone_exact (sentence_length min_rep_length L l l' : Int) (hL : 1 ≤ L)
    (hs : 1 ≤ sentence_length) (h1 : 1 ≤ l) (h2 : l ≤ l') (h3 : l' ≤ L) :
    ∃ k k' : Int, get_dynamic_k sentence_length min_rep_length L l = .ok k ∧
      get_dynamic_k sentence_length min_rep_length L l' = .ok k' ∧ k' ≤ k := by
  have _h1 := h1
  have hL0 : (0 : Int) < L := by omega
  by_cases hl : l = L
  · have hl' : l' = L := by omega
    exact ⟨1, 1, by simp [get_dynamic_k, hl], by simp [get_dynamic_k, hl'], le_rfl⟩
  · have hlt : l < L := by omega
    obtain ⟨hn, hk⟩ := get_dynamic_k_below sentence_length min_rep_length L l hlt hL (by omega)
    have hone : 1 ≤ ((L - l) * sentence_length + L - 1) / L := by
      rw [Int.le_ediv_iff_mul_le hL0]
      have : 1 * 1 ≤ (L - l) * sentence_length := mul_le_mul (by omega) hs (by omega) (by omega)
      omega
    by_cases hl' : l' = L
    · refine ⟨_, 1, hk, by simp [get_dynamic_k, hl'], ?_⟩
      exact le_trans hone (le_max_right _ _)
    · have hlt' : l' < L := by omega
      obtain ⟨_, hk'⟩ := get_dynamic_k_below sentence_length min_rep_length L l' hlt' hL
        (by omega)
      refine ⟨_, _, hk, hk', ?_⟩
      apply max_le_max le_rfl
      apply Int.ediv_le_ediv hL0
      have : (L - l') * sentence_length ≤ (L - l) * sentence_length :=
        mul_le_mul_of_nonneg_right (by omega) (by omega)
      omega

theorem wrap32_of_int (x : Int) (h0 : -2 ^ 31 ≤ x) (h1 : x < 2 ^ 31) : wrap32 x = x := by
  unfold wrap32
  omega

/-- The 32-bit routine agrees with the routine over unbounded integers when the largest
intermediate value `(L - l) * sentence_length + L` fits in an `int`. -/
theorem get_dynamic_k_int32_eq (sentence_length min_rep_length L l : Int) (h1 : 1 ≤ l)
    (h2 : l ≤ L) (hs : 0 ≤ sentence_length)
    (hno : (L - l) * sentence_length + L < 2 ^ 31) :
    get_dynamic_k_int32 sentence_length min_rep_length L l =
      get_dynamic_k sentence_length min_rep_length L l := by
  unfold get_dynamic_k_int32 get_dynamic_k
  by_cases hl : l = L
  · rw [if_pos hl, if_pos hl]
  · rw [if_neg hl, if_neg hl]
    have hp : 0 ≤ (L - l) * sentence_length := mul_nonneg (by omega) hs
    have w1 : wrap32 (L - l) = L - l := wrap32_of_int _ (by omega) (by omega)
    have w2 : wrap32 ((L - l) * sentence_length) = (L - l) * sentence_length :=
      wrap32_of_int _ (by omega) (by omega)
    have w3 : wrap32 ((L - l) * sentence_length + L) = (L - l) * sentence_length + L :=
      wrap32_of_int _ (by omega) (by omega)
    have w4 : wrap32 ((L - l) * sentence_length + L - 1) = (L - l) * sentence_length + L - 1 :=
      wrap32_of_int _ (by omega) (by omega)
    simp only [w1, w2, w3, w4]
    have hc : ¬ (L = 0 ∨ ((L - l) * sentence_length + L - 1 = -2 ^ 31 ∧ L = -1)) := by omega
    rw [if_neg hc, if_neg (show ¬ L = 0 by omega)]

/-- C16 (counterexample). With `sentence_length = 2000000000`, `min_rep_length = 1`,
`L = 3`, all of them `int` values, the product `2 * 2000000000` at stage `l = 1` wraps to a
negative number and the 32-bit routine returns 1, while at stage `l' = 2` it returns
666666667; so the schedule is not monotone decreasing for every input. -/
theorem get_dynamic_k_overflow_not_antitone :
    get_dynamic_k_int32 2000000000 1 3 1 = .ok 1 ∧
    get_dynamic_k_int32 2000000000 1 3 2 = .ok 666666667 ∧
    ¬ (∀ sentence_length min_rep_length L l l' : Int,
        (-2 ^ 31 ≤ sentence_length ∧ sentence_length < 2 ^ 31) →
        (-2 ^ 31 ≤ min_rep_length ∧ min_rep_length < 2 ^ 31) →
        (-2 ^ 31 ≤ L ∧ L < 2 ^ 31) →
        1 ≤ L → 1 ≤ sentence_length → 1 ≤ l → l ≤ l' → l' ≤ L →
        ∃ k k' : Int, get_dynamic_k_int32 sentence_length min_rep_length L l = .ok k ∧
          get_dynamic_k_int32 sentence_length min_rep_length L l' = .ok k' ∧ k' ≤ k) := by
  have e1 : get_dynamic_k_int32 2000000000 1 3 1 = .ok 1 := rfl
  have e2 : get_dynamic_k_int32 2000000000 1 3 2 = .ok 666666667 := rfl
  refine ⟨e1, e2, ?_⟩
  intro hall
  obtain ⟨k, k', hk, hk', hle⟩ := hall 2000000000 1 3 1 2 (by norm_num) (by norm_num)
    (by norm_num) (by norm_num) (by norm_num) (by norm_num) (by norm_num) (by norm_num)
  rw [e1] at hk
  rw [e2] at hk'
  have a1 : k = 1 := (Except.ok.inj hk).symm
  have a2 : k' = 666666667 := (Except.ok.inj hk').symm
  omega

/-- C16 (amended). On 32-bit `int`, the schedule is monotone decreasing over the stages
when the computation at the earlier stage does not overflow: for `L ≥ 1`,
`sentence_length ≥ 1`, any `min_rep_length`, stages `1 ≤ l ≤ l' ≤ L` and
`(L - l) * sentence_length + L ≤ INT_MAX`, both calls of `get_dynamic_k` return, and the
value at `l'` is at most the value at `l`. -/
theorem get_dynamic_k_antitone (sentence_length min_rep_length L l l' : Int) (hL : 1 ≤ L)
    (hs : 1 ≤ sentence_length) (h1 : 1 ≤ l) (h2 : l ≤ l') (h3 : l' ≤ L)
    (hno : (L - l) * sentence_length + L < 2 ^ 31) :
    ∃ k k' : Int, get_dynamic_k_int32 sentence_length min_rep_length L l = .ok k ∧
      get_dynamic_k_int32 sentence_length min_rep_length L l' = .ok k' ∧ k' ≤ k := by
  have hno' : (L - l') * sentence_length + L < 2 ^ 31 := by
    have : (L - l') * sentence_length ≤ (L - l) * sentence_length :=
      mul_le_mul_of_nonneg_right (by omega) (by omega)
    omega
  rw [get_dynamic_k_int32_eq sentence_length min_rep_length L l h1 (by omega) (by omega) hno,
    get_dynamic_k_int32_eq sentence_length min_rep_length L l' (by omega) h3 (by omega) hno']
  exact get_dynamic_k_antitone_exact sentence_length min_rep_length L l l' hL hs h1 h2 h3

/-- C16 (amended), at `sentence_length = 10`, `min_rep_length = 2`, `L = 3`, stages `1`
and `2`. -/
theorem get_dynamic_k_antitone_witness :
    ∃ k k' : Int, get_dynamic_k_int32 10 2 3 1 = .ok k ∧
      get_dynamic_k_int32 10 2 3 2 = .ok k' ∧ k' ≤ k :=
  get_dynamic_k_antitone 10 2 3 1 2 (by decide) (by decide) (by decide) (by decide)
    (by decide) (by norm_num)

/-! ## The postcondition checks of `dynamic_split` -/

theorem dynamic_split_eq_checks (input_row pool_row : Int) :
    dynamic_split input_row pool_row =
      if pool_row = 0 then .error .division_by_zero
      else if (split_loop input_row pool_row).getLastD 0 ≠
          (if input_row < pool_row then pool_row else input_row) then .error .split_error
      else if split_check (if input_row < pool_row then pool_row else input_row) pool_row
          (split_loop input_row pool_row) = false then .error .split_error
      else .ok (split_loop input_row pool_row) := rfl

theorem split_loop_eq_closed (extent segments : Int) (hs : 1 ≤ segments)
    (hb : segments < 2 ^ 64) :
    split_loop extent segments =
      split_closed (max extent segments / segments)
        (segments - max extent segments % segments).toNat segments.toNat := by
  have h := dynamic_split_eq_closed extent segments hs hb
  rw [dynamic_split_eq_checks] at h
  split_ifs at h <;> exact Except.ok.inj h

/-- C15. For `extent ≥ 1` and `segments ≥ 1` none of the three checks of `dynamic_split`
fails on the list `pos` built by its first loop: the last boundary equals
`padded = max(extent, segments)`, every boundary exceeds its predecessor, and every segment
length is at most `(padded - 1) / segments + 1`; the call returns `pos`, not the split
error. -/
theorem dynamic_split_checks_pass (extent segments : Int) (he : 1 ≤ extent)
    (hs : 1 ≤ segments) (hb : segments < 2 ^ 64) :
    (split_loop extent segments).getLastD 0 = max extent segments ∧
    ((split_loop extent segments).length : Int) = segments + 1 ∧
    (∀ k : Nat, (k : Int) < segments →
      (split_loop extent segments).getD k 0 < (split_loop extent segments).getD (k + 1) 0 ∧
      (split_loop extent segments).getD (k + 1) 0 - (split_loop extent segments).getD k 0 ≤
        (max extent segments - 1) / segments + 1) ∧
    dynamic_split extent segments = .ok (split_loop extent segments) ∧
    dynamic_split extent segments ≠ .error .split_error := by
  have hge : segments ≤ max extent segments := le_max_right _ _
  have hp : 1 ≤ max extent segments := le_trans he (le_max_left _ _)
  have hok := dynamic_split_eq_closed extent segments hs hb
  rw [split_loop_eq_closed extent segments hs hb]
  set P := max extent segments with hP
  have hs0 : (0 : Int) < segments := by omega
  have hr0 : 0 ≤ P % segments := Int.emod_nonneg _ (by omega)
  have hr1 : P % segments < segments := Int.emod_lt_of_pos _ hs0
  have hdm : segments * (P / segments) + P % segments = P := Int.ediv_add_emod P segments
  have hm1 : 1 ≤ P / segments := by
    rw [Int.le_ediv_iff_mul_le hs0]; omega
  have e1 : (segments.toNat : Int) = segments := Int.toNat_of_nonneg (by omega)
  refine ⟨?_, ?_, ?_, hok, by rw [hok]; exact fun h => nomatch h⟩
  · rw [split_closed_getLastD]
    have e2 : ((segments.toNat - (segments - P % segments).toNat : Nat) : Int) = P % segments := by
      omega
    rw [e1, e2, hdm]
  · rw [split_closed_length]; push_cast; omega
  · intro k hk
    rw [split_closed_getD _ _ _ _ (by omega), split_closed_getD _ _ _ _ (by omega)]
    by_cases hkT : k < (segments - P % segments).toNat
    · have a1 : k + 1 - (segments - P % segments).toNat = 0 := by omega
      have a2 : k - (segments - P % segments).toNat = 0 := by omega
      rw [a1, a2]
      have : P / segments - 1 ≤ (P - 1) / segments := by
        rw [Int.le_ediv_iff_mul_le hs0]; nlinarith
      push_cast
      constructor <;> nlinarith
    · have a1 : k + 1 - (segments - P % segments).toNat =
          k - (segments - P % segments).toNat + 1 := by omega
      rw [a1]
      have hrpos : 1 ≤ P % segments := by omega
      have : P / segments ≤ (P - 1) / segments := by
        rw [Int.le_ediv_iff_mul_le hs0]; nlinarith
      push_cast
      constructor <;> nlinarith

/-- C15, at `extent = 5`, `segments = 3`. -/
theorem dynamic_split_checks_pass_witness :
    (split_loop 5 3).getLastD 0 = max 5 3 ∧
    ((split_loop 5 3).length : Int) = 3 + 1 ∧
    (∀ k : Nat, (k : Int) < 3 →
      (split_loop 5 3).getD k 0 < (split_loop 5 3).getD (k + 1) 0 ∧
      (split_loop 5 3).getD (k + 1) 0 - (split_loop 5 3).getD k 0 ≤ (max 5 3 - 1) / 3 + 1) ∧
    dynamic_split 5 3 = .ok (split_loop 5 3) ∧
    dynamic_split 5 3 ≠ .error .split_error :=
  dynamic_split_checks_pass 5 3 (by decide) (by decide) (by norm_num)

/-! ## Boundaries: ends, monotonicity, covering -/

theorem int_range_getD (n : Int) (k : Nat) (hk : (k : Int) < n) :
    (int_range 0 n).getD k 0 = (k : Int) := by
  have hk2 : k < n.toNat := by omega
  simp [int_range, List.getD_eq_getElem?_getD, List.getElem?_map, List.getElem?_range hk2]

/-- On `segments ≥ 1` the boundary list starts at 0, ends at `max(extent, segments)`, and
every boundary is non-negative and smaller than the next. -/
theorem dynamic_split_shape (extent segments : Int) (hs : 1 ≤ segments)
    (hb : segments < 2 ^ 64) :
    ∃ b : List Int, dynamic_split extent segments = .ok b ∧
      b.getD 0 0 = 0 ∧ b.getD segments.toNat 0 = max extent segments ∧
      ∀ k : Nat, (k : Int) < segments → 0 ≤ b.getD k 0 ∧ b.getD k 0 < b.getD (k + 1) 0 := by
  obtain ⟨b, hb1, hb2⟩ := dynamic_split_bounds extent segments hs hb
  refine ⟨b, hb1, ?_, ?_, hb2⟩
  · have h := dynamic_split_eq_closed extent segments hs hb
    rw [hb1] at h
    rw [Except.ok.inj h, split_closed_getD _ _ _ _ (by omega)]
    simp
  · have h := dynamic_split_eq_closed extent segments hs hb
    rw [hb1] at h
    rw [Except.ok.inj h, split_closed_getD _ _ _ _ le_rfl]
    have hge : segments ≤ max extent segments := le_max_right _ _
    have hs0 : (0 : Int) < segments := by omega
    have hr0 : 0 ≤ max extent segments % segments := Int.emod_nonneg _ (by omega)
    have hr1 : max extent segments % segments < segments := Int.emod_lt_of_pos _ hs0
    have hdm := Int.ediv_add_emod (max extent segments) segments
    have e1 : (segments.toNat : Int) = segments := Int.toNat_of_nonneg (by omega)
    have e2 : ((segments.toNat - (segments - max extent segments % segments).toNat : Nat) : Int)
        = max extent segments % segments := by omega
    rw [e1, e2, hdm]

theorem steps_mono (f : Nat → Int) (n : Nat) (h : ∀ k : Nat, k < n → f k < f (k + 1))
    (a b : Nat) (hab : a ≤ b) (hbn : b ≤ n) : f a ≤ f b := by
  induction b with
  | zero =>
    have : a = 0 := by omega
    rw [this]
  | succ b ih =>
    rcases Nat.lt_or_ge a (b + 1) with h1 | h1
    · exact le_trans (ih (by omega) (by omega)) (le_of_lt (h b (by omega)))
    · have : a = b + 1 := by omega
      rw [this]

theorem steps_cover (f : Nat → Int) (n : Nat) (r : Int) (h0 : f 0 ≤ r) (h1 : r < f n) :
    ∃ k : Nat, k < n ∧ f k ≤ r ∧ r < f (k + 1) := by
  induction n with
  | zero => omega
  | succ n ih =>
    by_cases h : r < f n
    · obtain ⟨k, hk, hk2⟩ := ih h
      exact ⟨k, by omega, hk2⟩
    · exact ⟨n, by omega, not_lt.mp h, h1⟩

/-! ## Padding and pooling to the logical size -/

section Pooling

variable {α : Type} [LinearOrderedRing α]

/-- C13. Padding case: for `logical_rows ≥ 1` and `pool_rows ≥ logical_rows`,
`dynamic_split(logical_rows, pool_rows)` returns `[0, 1, ..., pool_rows]`, and when every
cell inside the logical extent exceeds `-100000000` (sizes valid), `pooling_one_matrix`
records `row_pos[i][j] = i mod logical_rows` for every output cell `(i, j)`. -/
theorem pooling_one_matrix_padded_rows (t_in t_out : Tensor2D α) (input_row input_col pool_row
    pool_col : Int) (row_pos col_pos : Tensor2D Int)
    (hir : 1 ≤ input_row) (hic : 1 ≤ input_col) (hpad : input_row ≤ pool_row)
    (hpc : 1 ≤ pool_col) (hbr : pool_row < 2 ^ 64) (hbc : pool_col < 2 ^ 64)
    (hout : (t_out.size0 : Int) = pool_row ∧ (t_out.size1 : Int) = pool_col)
    (hin : input_row ≤ (t_in.size0 : Int) ∧ input_col ≤ (t_in.size1 : Int))
    (hin2 : pool_row ≤ (t_in.size0 : Int) ∧ pool_col ≤ (t_in.size1 : Int))
    (hval : ∀ r c : Int, 0 ≤ r → r < input_row → 0 ≤ c → c < input_col →
      -100000000 < t_in.cell r c) :
    dynamic_split input_row pool_row = .ok (int_range 0 (pool_row + 1)) ∧
    ∃ s : PoolState α,
      pooling_one_matrix t_in t_out input_row input_col pool_row pool_col row_pos col_pos =
        .ok s ∧
      ∀ i j : Nat, (i : Int) < pool_row → (j : Int) < pool_col →
        s.row_pos.cell i j = (i : Int) % input_row := by
  have hsplit := dynamic_split_small_extent input_row pool_row hpad (by omega) hbr
  refine ⟨hsplit, ?_⟩
  obtain ⟨rb, cb, s, hrb, _, hs, hrb2, hcb2, hcell⟩ := pooling_one_matrix_cells t_in t_out
    input_row input_col pool_row pool_col row_pos col_pos (by omega) hpc hbr hbc hout hin hin2
  have hrbeq : rb = int_range 0 (pool_row + 1) := by
    rw [hsplit] at hrb
    exact (Except.ok.inj hrb).symm
  refine ⟨s, hs, ?_⟩
  intro i j hi hj
  obtain ⟨_, hrp, _⟩ := hcell i j hi hj
  obtain ⟨hm1, _, hw1, _, _, _⟩ := pooling_one_chunk_of_logical t_in input_row input_col
    (rb.getD i 0) (rb.getD (i + 1) 0) (cb.getD j 0) (cb.getD (j + 1) 0) (by omega) (by omega)
    (hrb2 i hi).1 (hcb2 j hj).1 (hrb2 i hi).2 (hcb2 j hj).2 hval
  have g0 : rb.getD i 0 = (i : Int) := by
    rw [hrbeq]; exact int_range_getD _ _ (by omega)
  have g1 : rb.getD (i + 1) 0 = (i : Int) + 1 := by
    rw [hrbeq, int_range_getD _ _ (by push_cast; omega)]; push_cast; rfl
  rw [hrp]
  unfold chunk_pick
  rw [hw1]
  have : (pooling_one_chunk t_in input_row input_col (rb.getD i 0) (rb.getD (i + 1) 0)
      (cb.getD j 0) (cb.getD (j + 1) 0)).1 = (i : Int) := by omega
  rw [this]

/-- C19. Pooling to the logical size is the identity: when every cell inside the logical
extent exceeds `-100000000`, `pool_rows = logical_rows` and `pool_cols = logical_cols`
(sizes valid), `pooling_one_matrix` yields `output[i][j] = input[i][j]` and the recorded
position `(i, j)` for every `(i, j)` in the logical extent. -/
theorem pooling_one_matrix_identity (t_in t_out : Tensor2D α) (input_row input_col pool_row
    pool_col : Int) (row_pos col_pos : Tensor2D Int)
    (hir : 1 ≤ input_row) (hic : 1 ≤ input_col)
    (hpr : pool_row = input_row) (hpc : pool_col = input_col)
    (hbr : pool_row < 2 ^ 64) (hbc : pool_col < 2 ^ 64)
    (hout : (t_out.size0 : Int) = pool_row ∧ (t_out.size1 : Int) = pool_col)
    (hin : input_row ≤ (t_in.size0 : Int) ∧ input_col ≤ (t_in.size1 : Int))
    (hval : ∀ r c : Int, 0 ≤ r → r < input_row → 0 ≤ c → c < input_col →
      -100000000 < t_in.cell r c) :
    ∃ s : PoolState α,
      pooling_one_matrix t_in t_out input_row input_col pool_row pool_col row_pos col_pos =
        .ok s ∧
      ∀ i j : Nat, (i : Int) < input_row → (j : Int) < input_col →
        s.t_out.cell i j = t_in.cell i j ∧
        s.row_pos.cell i j = (i : Int) ∧ s.col_pos.cell i j = (j : Int) := by
  subst hpr hpc
  have hsr := dynamic_split_small_extent pool_row pool_row le_rfl hir hbr
  have hsc := dynamic_split_small_extent pool_col pool_col le_rfl hic hbc
  obtain ⟨rb, cb, s, hrb, hcb, hs, hrb2, hcb2, hcell⟩ := pooling_one_matrix_cells t_in t_out
    pool_row pool_col pool_row pool_col row_pos col_pos hir hic hbr hbc hout hin hin
  have hrbeq : rb = int_range 0 (pool_row + 1) := by
    rw [hsr] at hrb
    exact (Except.ok.inj hrb).symm
  have hcbeq : cb = int_range 0 (pool_col + 1) := by
    rw [hsc] at hcb
    exact (Except.ok.inj hcb).symm
  refine ⟨s, hs, ?_⟩
  intro i j hi hj
  obtain ⟨ho, hrp, hcp⟩ := hcell i j hi hj
  obtain ⟨hm1, hm2, hw1, hw2, _, _⟩ := pooling_one_chunk_of_logical t_in pool_row pool_col
    (rb.getD i 0) (rb.getD (i + 1) 0) (cb.getD j 0) (cb.getD (j + 1) 0) (by omega) (by omega)
    (hrb2 i hi).1 (hcb2 j hj).1 (hrb2 i hi).2 (hcb2 j hj).2 hval
  have g0 : rb.getD i 0 = (i : Int) := by
    rw [hrbeq]; exact int_range_getD _ _ (by omega)
  have g1 : rb.getD (i + 1) 0 = (i : Int) + 1 := by
    rw [hrbeq, int_range_getD _ _ (by push_cast; omega)]; push_cast; rfl
  have g2 : cb.getD j 0 = (j : Int) := by
    rw [hcbeq]; exact int_range_getD _ _ (by omega)
  have g3 : cb.getD (j + 1) 0 = (j : Int) + 1 := by
    rw [hcbeq, int_range_getD _ _ (by push_cast; omega)]; push_cast; rfl
  have e1 : (pooling_one_chunk t_in pool_row pool_col (rb.getD i 0) (rb.getD (i + 1) 0)
      (cb.getD j 0) (cb.getD (j + 1) 0)).1 = (i : Int) := by omega
  have e2 : (pooling_one_chunk t_in pool_row pool_col (rb.getD i 0) (rb.getD (i + 1) 0)
      (cb.getD j 0) (cb.getD (j + 1) 0)).2 = (j : Int) := by omega
  have m1 : (i : Int) % pool_row = (i : Int) := Int.emod_eq_of_lt (by omega) hi
  have m2 : (j : Int) % pool_col = (j : Int) := Int.emod_eq_of_lt (by omega) hj
  rw [ho, hrp, hcp]
  unfold chunk_pick
  rw [hw1, hw2, e1, e2, m1, m2]
  exact ⟨rfl, rfl, rfl⟩

end Pooling

/-! ## Covering of the logical extent and the global maximum -/

section Pooling

variable {α : Type} [LinearOrderedRing α]

/-- The boundaries returned on `segments ≥ 1` cover `[0, extent)`: every index there lies
in one segment. -/
theorem dynamic_split_cover (extent segments : Int) (hs : 1 ≤ segments)
    (hb : segments < 2 ^ 64) (b : List Int) (hok : dynamic_split extent segments = .ok b)
    (r : Int) (h0 : 0 ≤ r) (h1 : r < extent) :
    ∃ k : Nat, (k : Int) < segments ∧ b.getD k 0 ≤ r ∧ r < b.getD (k + 1) 0 := by
  obtain ⟨b', hb', hz, hlast, _⟩ := dynamic_split_shape extent segments hs hb
  rw [hok] at hb'
  have hbb : b = b' := Except.ok.inj hb'
  subst hbb
  have hle : extent ≤ max extent segments := le_max_left _ _
  obtain ⟨k, hk, hk2⟩ := steps_cover (fun k => b.getD k 0) segments.toNat r
    (by simp only [hz]; exact h0) (by simp only [hlast]; omega)
  exact ⟨k, by omega, hk2⟩

/-- Some cell of a non-empty logical extent carries the largest value. -/
theorem exists_max_cell (t : Tensor2D α) (input_row input_col : Int) (hir : 1 ≤ input_row)
    (hic : 1 ≤ input_col) :
    ∃ r0 c0 : Int, (0 ≤ r0 ∧ r0 < input_row) ∧ (0 ≤ c0 ∧ c0 < input_col) ∧
      ∀ r c : Int, 0 ≤ r → r < input_row → 0 ≤ c → c < input_col →
        t.cell r c ≤ t.cell r0 c0 := by
  have hne : (Finset.range input_row.toNat ×ˢ Finset.range input_col.toNat).Nonempty :=
    ⟨(0, 0), by simp; omega⟩
  obtain ⟨p, hp, hmax⟩ := Finset.exists_max_image _
    (fun p : Nat × Nat => t.cell (p.1 : Int) (p.2 : Int)) hne
  rw [Finset.mem_product, Finset.mem_range, Finset.mem_range] at hp
  refine ⟨p.1, p.2, by omega, by omega, ?_⟩
  intro r c a1 a2 a3 a4
  have := hmax (r.toNat, c.toNat) (by
    rw [Finset.mem_product, Finset.mem_range, Finset.mem_range]; constructor <;> simp <;> omega)
  have e1 : ((r.toNat : Nat) : Int) = r := Int.toNat_of_nonneg a1
  have e2 : ((c.toNat : Nat) : Int) = c := Int.toNat_of_nonneg a3
  simpa only [e1, e2] using this

/-- C17. Pooling preserves the global maximum: when every cell inside the logical extent
exceeds `-100000000` and the sizes are valid, padded or not, the chunks cover every logical
cell, and one value `M` is both the maximum of the output over
`[0, pool_rows) x [0, pool_cols)` and the maximum of the input over
`[0, logical_rows) x [0, logical_cols)`. -/
theorem pooling_one_matrix_preserves_max (t_in t_out : Tensor2D α) (input_row input_col
    pool_row pool_col : Int) (row_pos col_pos : Tensor2D Int)
    (hir : 1 ≤ input_row) (hic : 1 ≤ input_col) (hpr : 1 ≤ pool_row) (hpc : 1 ≤ pool_col)
    (hbr : pool_row < 2 ^ 64) (hbc : pool_col < 2 ^ 64)
    (hout : (t_out.size0 : Int) = pool_row ∧ (t_out.size1 : Int) = pool_col)
    (hin : input_row ≤ (t_in.size0 : Int) ∧ input_col ≤ (t_in.size1 : Int))
    (hin2 : pool_row ≤ (t_in.size0 : Int) ∧ pool_col ≤ (t_in.size1 : Int))
    (hval : ∀ r c : Int, 0 ≤ r → r < input_row → 0 ≤ c → c < input_col →
      -100000000 < t_in.cell r c) :
    ∃ (rb cb : List Int) (s : PoolState α),
      dynamic_split input_row pool_row = .ok rb ∧
      dynamic_split input_col pool_col = .ok cb ∧
      pooling_one_matrix t_in t_out input_row input_col pool_row pool_col row_pos col_pos =
        .ok s ∧
      (∀ r c : Int, 0 ≤ r → r < input_row → 0 ≤ c → c < input_col →
        ∃ i j : Nat, (i : Int) < pool_row ∧ (j : Int) < pool_col ∧
          (rb.getD i 0 ≤ r ∧ r < rb.getD (i + 1) 0) ∧
          (cb.getD j 0 ≤ c ∧ c < cb.getD (j + 1) 0)) ∧
      ∃ M : α,
        ((∀ i j : Nat, (i : Int) < pool_row → (j : Int) < pool_col → s.t_out.cell i j ≤ M) ∧
          ∃ i j : Nat, (i : Int) < pool_row ∧ (j : Int) < pool_col ∧ s.t_out.cell i j = M) ∧
        ((∀ r c : Int, 0 ≤ r → r < input_row → 0 ≤ c → c < input_col → t_in.cell r c ≤ M) ∧
          ∃ r c : Int, (0 ≤ r ∧ r < input_row) ∧ (0 ≤ c ∧ c < input_col) ∧
            t_in.cell r c = M) := by
  obtain ⟨rb, cb, s, hrb, hcb, hs, hrb2, hcb2, hcell⟩ := pooling_one_matrix_cells t_in t_out
    input_row input_col pool_row pool_col row_pos col_pos hpr hpc hbr hbc hout hin hin2
  have hcover : ∀ r c : Int, 0 ≤ r → r < input_row → 0 ≤ c → c < input_col →
      ∃ i j : Nat, (i : Int) < pool_row ∧ (j : Int) < pool_col ∧
        (rb.getD i 0 ≤ r ∧ r < rb.getD (i + 1) 0) ∧
        (cb.getD j 0 ≤ c ∧ c < cb.getD (j + 1) 0) := by
    intro r c a1 a2 a3 a4
    obtain ⟨i, hi, hi2⟩ := dynamic_split_cover input_row pool_row hpr hbr rb hrb r a1 a2
    obtain ⟨j, hj, hj2⟩ := dynamic_split_cover input_col pool_col hpc hbc cb hcb c a3 a4
    exact ⟨i, j, hi, hj, hi2, hj2⟩
  have hpick : ∀ i j : Nat, (i : Int) < pool_row → (j : Int) < pool_col →
      (∃ r c : Int, (0 ≤ r ∧ r < input_row) ∧ (0 ≤ c ∧ c < input_col) ∧
        s.t_out.cell i j = t_in.cell r c) ∧
      ∀ r c : Int, rb.getD i 0 ≤ r → r < rb.getD (i + 1) 0 →
        cb.getD j 0 ≤ c → c < cb.getD (j + 1) 0 →
        t_in.cell (r % input_row) (c % input_col) ≤ s.t_out.cell i j := by
    intro i j hi hj
    obtain ⟨ho, _, _⟩ := hcell i j hi hj
    obtain ⟨_, _, hw1, hw2, hmax, _⟩ := pooling_one_chunk_of_logical t_in input_row input_col
      (rb.getD i 0) (rb.getD (i + 1) 0) (cb.getD j 0) (cb.getD (j + 1) 0) (by omega) (by omega)
      (hrb2 i hi).1 (hcb2 j hj).1 (hrb2 i hi).2 (hcb2 j hj).2 hval
    unfold chunk_pick at ho
    rw [hw1, hw2] at ho
    refine ⟨⟨_, _, ⟨Int.emod_nonneg _ (by omega), Int.emod_lt_of_pos _ (by omega)⟩,
      ⟨Int.emod_nonneg _ (by omega), Int.emod_lt_of_pos _ (by omega)⟩, ho⟩, ?_⟩
    intro r c a1 a2 a3 a4
    rw [ho]
    exact hmax r c a1 a2 a3 a4
  obtain ⟨r0, c0, hr0, hc0, hM⟩ := exists_max_cell t_in input_row input_col hir hic
  refine ⟨rb, cb, s, hrb, hcb, hs, hcover, t_in.cell r0 c0, ⟨?_, ?_⟩, ⟨hM, r0, c0, hr0, hc0, rfl⟩⟩
  · intro i j hi hj
    obtain ⟨⟨r, c, hr, hc, he⟩, _⟩ := hpick i j hi hj
    rw [he]
    exact hM r c hr.1 hr.2 hc.1 hc.2
  · obtain ⟨i, j, hi, hj, hri, hcj⟩ := hcover r0 c0 hr0.1 hr0.2 hc0.1 hc0.2
    refine ⟨i, j, hi, hj, le_antisymm ?_ ?_⟩
    · obtain ⟨⟨r, c, hr, hc, he⟩, _⟩ := hpick i j hi hj
      rw [he]
      exact hM r c hr.1 hr.2 hc.1 hc.2
    · have := (hpick i j hi hj).2 r0 c0 hri.1 hri.2 hcj.1 hcj.2
      rwa [Int.emod_eq_of_lt hr0.1 hr0.2, Int.emod_eq_of_lt hc0.1 hc0.2] at this

end Pooling

/-! ## Injective positions without padding -/

section Pooling

variable {α : Type} [LinearOrderedRing α]

/-- Without padding on an axis the wrapped pick stays in its own segment. -/
theorem wrapped_in_segment (extent segments : Int) (hs : 1 ≤ segments)
    (hb : segments < 2 ^ 64) (hnp : segments ≤ extent) (b : List Int)
    (hok : dynamic_split extent segments = .ok b) (k : Nat) (hk : (k : Int) < segments)
    (x : Int) (hx : b.getD k 0 ≤ x ∧ x < b.getD (k + 1) 0) :
    b.getD k 0 ≤ x % extent ∧ x % extent < b.getD (k + 1) 0 := by
  obtain ⟨b', hb', _, hlast, hstep⟩ := dynamic_split_shape extent segments hs hb
  rw [hok] at hb'
  have hbb : b = b' := Except.ok.inj hb'
  subst hbb
  have hmono := steps_mono (fun k => b.getD k 0) segments.toNat
    (fun k hk => (hstep k (by omega)).2) (k + 1) segments.toNat (by omega) le_rfl
  simp only [hlast, max_eq_left hnp] at hmono
  have h0 := (hstep k hk).1
  rw [Int.emod_eq_of_lt (by omega) (by omega)]
  exact hx

/-- Segments with different indices are disjoint. -/
theorem segments_disjoint (extent segments : Int) (hs : 1 ≤ segments)
    (hb : segments < 2 ^ 64) (b : List Int) (hok : dynamic_split extent segments = .ok b)
    (k k' : Nat) (hk : (k : Int) < segments) (hk' : (k' : Int) < segments) (x : Int)
    (hx : b.getD k 0 ≤ x ∧ x < b.getD (k + 1) 0)
    (hx' : b.getD k' 0 ≤ x ∧ x < b.getD (k' + 1) 0) : k = k' := by
  obtain ⟨b', hb', _, _, hstep⟩ := dynamic_split_shape extent segments hs hb
  rw [hok] at hb'
  have hbb : b = b' := Except.ok.inj hb'
  subst hbb
  have hmono := steps_mono (fun k => b.getD k 0) segments.toNat
    (fun k hk => (hstep k (by omega)).2)
  rcases Nat.lt_trichotomy k k' with h | h | h
  · have := hmono (k + 1) k' (by omega) (by omega)
    simp only at this
    omega
  · exact h
  · have := hmono (k' + 1) k (by omega) (by omega)
    simp only at this
    omega

/-- C18. Without padding the recorded positions are injective: when every cell inside the
logical extent exceeds `-100000000`, `pool_rows ≤ logical_rows` and
`pool_cols ≤ logical_cols` (sizes valid), distinct output cells record distinct positions,
and `unpooling_one_matrix` with these positions leaves each cell of the input gradient
unchanged or adds to it the output-gradient entry of a single output cell. -/
theorem pooling_one_matrix_positions_injective (t_in t_out : Tensor2D α) (input_row input_col
    pool_row pool_col : Int) (row_pos col_pos : Tensor2D Int)
    (hpr : 1 ≤ pool_row) (hpc : 1 ≤ pool_col)
    (hnr : pool_row ≤ input_row) (hnc : pool_col ≤ input_col)
    (hbr : pool_row < 2 ^ 64) (hbc : pool_col < 2 ^ 64)
    (hout : (t_out.size0 : Int) = pool_row ∧ (t_out.size1 : Int) = pool_col)
    (hin : input_row ≤ (t_in.size0 : Int) ∧ input_col ≤ (t_in.size1 : Int))
    (hval : ∀ r c : Int, 0 ≤ r → r < input_row → 0 ≤ c → c < input_col →
      -100000000 < t_in.cell r c) :
    ∃ s : PoolState α,
      pooling_one_matrix t_in t_out input_row input_col pool_row pool_col row_pos col_pos =
        .ok s ∧
      (∀ i j i' j' : Nat, (i : Int) < pool_row → (j : Int) < pool_col →
        (i' : Int) < pool_row → (j' : Int) < pool_col → (i, j) ≠ (i', j') →
        (s.row_pos.cell i j, s.col_pos.cell i j) ≠
          (s.row_pos.cell i' j', s.col_pos.cell i' j')) ∧
      ∀ (g_in g_out : Tensor2D α) (r c : Int),
        (unpooling_one_matrix g_in g_out pool_row pool_col s.row_pos s.col_pos).cell r c =
            g_in.cell r c ∨
          ∃ i j : Nat, (i : Int) < pool_row ∧ (j : Int) < pool_col ∧
            (s.row_pos.cell i j, s.col_pos.cell i j) = (r, c) ∧
            (unpooling_one_matrix g_in g_out pool_row pool_col s.row_pos s.col_pos).cell r c =
              g_in.cell r c + g_out.cell i j := by
  obtain ⟨rb, cb, s, hrb, hcb, hs, hrb2, hcb2, hcell⟩ := pooling_one_matrix_cells t_in t_out
    input_row input_col pool_row pool_col row_pos col_pos hpr hpc hbr hbc hout hin
    ⟨by omega, by omega⟩
  have hseg : ∀ i j : Nat, (i : Int) < pool_row → (j : Int) < pool_col →
      (rb.getD i 0 ≤ s.row_pos.cell i j ∧ s.row_pos.cell i j < rb.getD (i + 1) 0) ∧
      (cb.getD j 0 ≤ s.col_pos.cell i j ∧ s.col_pos.cell i j < cb.getD (j + 1) 0) := by
    intro i j hi hj
    obtain ⟨_, hrp, hcp⟩ := hcell i j hi hj
    obtain ⟨hm1, hm2, hw1, hw2, _, _⟩ := pooling_one_chunk_of_logical t_in input_row input_col
      (rb.getD i 0) (rb.getD (i + 1) 0) (cb.getD j 0) (cb.getD (j + 1) 0) (by omega) (by omega)
      (hrb2 i hi).1 (hcb2 j hj).1 (hrb2 i hi).2 (hcb2 j hj).2 hval
    unfold chunk_pick at hrp hcp
    rw [hw1] at hrp
    rw [hw2] at hcp
    rw [hrp, hcp]
    exact ⟨wrapped_in_segment input_row pool_row hpr hbr hnr rb hrb i hi _ hm1,
      wrapped_in_segment input_col pool_col hpc hbc hnc cb hcb j hj _ hm2⟩
  have hinj : ∀ i j i' j' : Nat, (i : Int) < pool_row → (j : Int) < pool_col →
      (i' : Int) < pool_row → (j' : Int) < pool_col →
      (s.row_pos.cell i j, s.col_pos.cell i j) = (s.row_pos.cell i' j', s.col_pos.cell i' j') →
      i = i' ∧ j = j' := by
    intro i j i' j' hi hj hi' hj' heq
    rw [Prod.mk.injEq] at heq
    obtain ⟨a1, a2⟩ := hseg i j hi hj
    obtain ⟨b1, b2⟩ := hseg i' j' hi' hj'
    rw [← heq.1] at b1
    rw [← heq.2] at b2
    exact ⟨segments_disjoint input_row pool_row hpr hbr rb hrb i i' hi hi' _ a1 b1,
      segments_disjoint input_col pool_col hpc hbc cb hcb j j' hj hj' _ a2 b2⟩
  refine ⟨s, hs, ?_, ?_⟩
  · intro i j i' j' hi hj hi' hj' hne heq
    obtain ⟨e1, e2⟩ := hinj i j i' j' hi hj hi' hj' heq
    exact hne (by rw [e1, e2])
  · intro g_in g_out r c
    rw [unpool_cell_eq]
    by_cases hex : ∃ i j : Nat, (i : Int) < pool_row ∧ (j : Int) < pool_col ∧
        (s.row_pos.cell i j, s.col_pos.cell i j) = (r, c)
    · obtain ⟨i0, j0, hi0, hj0, hp0⟩ := hex
      refine Or.inr ⟨i0, j0, hi0, hj0, hp0, ?_⟩
      congr 1
      rw [Finset.sum_eq_single i0]
      · rw [Finset.sum_eq_single j0]
        · rw [Prod.mk.injEq] at hp0
          rw [if_pos hp0]
        · intro j hj hne
          rw [Finset.mem_range] at hj
          apply if_neg
          intro hp
          have := hinj i0 j i0 j0 hi0 (by omega) hi0 hj0 (by
            rw [hp0, Prod.mk.injEq]; exact hp)
          exact hne this.2
        · intro h
          exact absurd (Finset.mem_range.mpr (by omega)) h
      · intro i hi hne
        rw [Finset.mem_range] at hi
        apply Finset.sum_eq_zero
        intro j hj
        rw [Finset.mem_range] at hj
        apply if_neg
        intro hp
        have := hinj i j i0 j0 (by omega) (by omega) hi0 hj0 (by
          rw [hp0, Prod.mk.injEq]; exact hp)
        exact hne this.1
      · intro h
        exact absurd (Finset.mem_range.mpr (by omega)) h
    · left
      have hz : Finset.sum (Finset.range pool_row.toNat) (fun i =>
          Finset.sum (Finset.range pool_col.toNat) (fun j =>
            if s.row_pos.cell i j = r ∧ s.col_pos.cell i j = c then g_out.cell i j else 0)) =
          0 := by
        apply Finset.sum_eq_zero
        intro i hi
        apply Finset.sum_eq_zero
        intro j hj
        rw [Finset.mem_range] at hi hj
        apply if_neg
        intro hp
        exact hex ⟨i, j, by omega, by omega, by rw [Prod.mk.injEq]; exact hp⟩
      rw [hz, add_zero]

end Pooling

/-! ## Further instances on concrete grids -/

theorem grid_4x1_above :
    ∀ r c : Int, 0 ≤ r → r < 2 → 0 ≤ c → c < 1 → -100000000 < grid_4x1.cell r c := by
  intro r c h1 h2 h3 h4
  have hc : c = 0 := by omega
  subst hc
  interval_cases r <;> decide

theorem grid_2x2_above :
    ∀ r c : Int, 0 ≤ r → r < 2 → 0 ≤ c → c < 2 → -100000000 < grid_2x2.cell r c := by
  intro r c h1 h2 h3 h4
  interval_cases r <;> interval_cases c <;> decide

/-- C13, at `logical_rows = 2`, `pool_rows = 4`: the boundaries are `[0, 1, 2, 3, 4]`, and
output row `i` records the real row `i mod 2`, so chunk 2 selects from real row 0 and
chunk 3 from real row 1. -/
theorem pooling_one_matrix_padded_rows_witness :
    dynamic_split 2 4 = .ok [0, 1, 2, 3, 4] ∧
    ∃ s : PoolState Int,
      pooling_one_matrix grid_4x1 (Tensor2D.zeros 4 1) 2 1 4 1 (Tensor2D.zeros 4 1)
        (Tensor2D.zeros 4 1) = .ok s ∧
      ∀ i j : Nat, (i : Int) < 4 → (j : Int) < 1 → s.row_pos.cell i j = (i : Int) % 2 :=
  pooling_one_matrix_padded_rows grid_4x1 (Tensor2D.zeros 4 1) 2 1 4 1 (Tensor2D.zeros 4 1)
    (Tensor2D.zeros 4 1) (by decide) (by decide) (by decide) (by decide) (by norm_num)
    (by norm_num) (by decide) (by decide) (by decide) grid_4x1_above

/-- C17, on the grid `[1, 5, 3, 5, 2]` pooled to 1 x 3. -/
theorem pooling_one_matrix_preserves_max_witness :
    ∃ (rb cb : List Int) (s : PoolState Int),
      dynamic_split 1 1 = .ok rb ∧
      dynamic_split 5 3 = .ok cb ∧
      pooling_one_matrix grid_1x5 (Tensor2D.zeros 1 3) 1 5 1 3 (Tensor2D.zeros 1 3)
        (Tensor2D.zeros 1 3) = .ok s ∧
      (∀ r c : Int, 0 ≤ r → r < 1 → 0 ≤ c → c < 5 →
        ∃ i j : Nat, (i : Int) < 1 ∧ (j : Int) < 3 ∧
          (rb.getD i 0 ≤ r ∧ r < rb.getD (i + 1) 0) ∧
          (cb.getD j 0 ≤ c ∧ c < cb.getD (j + 1) 0)) ∧
      ∃ M : Int,
        ((∀ i j : Nat, (i : Int) < 1 → (j : Int) < 3 → s.t_out.cell i j ≤ M) ∧
          ∃ i j : Nat, (i : Int) < 1 ∧ (j : Int) < 3 ∧ s.t_out.cell i j = M) ∧
        ((∀ r c : Int, 0 ≤ r → r < 1 → 0 ≤ c → c < 5 → grid_1x5.cell r c ≤ M) ∧
          ∃ r c : Int, (0 ≤ r ∧ r < 1) ∧ (0 ≤ c ∧ c < 5) ∧ grid_1x5.cell r c = M) :=
  pooling_one_matrix_preserves_max grid_1x5 (Tensor2D.zeros 1 3) 1 5 1 3 (Tensor2D.zeros 1 3)
    (Tensor2D.zeros 1 3) (by decide) (by decide) (by decide) (by decide) (by norm_num)
    (by norm_num) (by decide) (by decide) (by decide) (grid_1x5_above 5 (by decide))

/-- C18, on the grid `[1, 5, 3, 5, 2]` pooled to 1 x 3, where no axis is padded. -/
theorem pooling_one_matrix_positions_injective_witness :
    ∃ s : PoolState Int,
      pooling_one_matrix grid_1x5 (Tensor2D.zeros 1 3) 1 5 1 3 (Tensor2D.zeros 1 3)
        (Tensor2D.zeros 1 3) = .ok s ∧
      (∀ i j i' j' : Nat, (i : Int) < 1 → (j : Int) < 3 →
        (i' : Int) < 1 → (j' : Int) < 3 → (i, j) ≠ (i', j') →
        (s.row_pos.cell i j, s.col_pos.cell i j) ≠
          (s.row_pos.cell i' j', s.col_pos.cell i' j')) ∧
      ∀ (g_in g_out : Tensor2D Int) (r c : Int),
        (unpooling_one_matrix g_in g_out 1 3 s.row_pos s.col_pos).cell r c = g_in.cell r c ∨
          ∃ i j : Nat, (i : Int) < 1 ∧ (j : Int) < 3 ∧
            (s.row_pos.cell i j, s.col_pos.cell i j) = (r, c) ∧
            (unpooling_one_matrix g_in g_out 1 3 s.row_pos s.col_pos).cell r c =
              g_in.cell r c + g_out.cell i j :=
  pooling_one_matrix_positions_injective grid_1x5 (Tensor2D.zeros 1 3) 1 5 1 3
    (Tensor2D.zeros 1 3) (Tensor2D.zeros 1 3) (by decide) (by decide) (by decide) (by decide)
    (by norm_num) (by norm_num) (by decide) (by decide) (grid_1x5_above 5 (by decide))

/-- C19, on the 2 x 2 grid with rows `[1, 2]` and `[3, 4]` pooled to 2 x 2. -/
theorem pooling_one_matrix_identity_witness :
    ∃ s : PoolState Int,
      pooling_one_matrix grid_2x2 (Tensor2D.zeros 2 2) 2 2 2 2 (Tensor2D.zeros 2 2)
        (Tensor2D.zeros 2 2) = .ok s ∧
      ∀ i j : Nat, (i : Int) < 2 → (j : Int) < 2 →
        s.t_out.cell i j = grid_2x2.cell i j ∧
        s.row_pos.cell i j = (i : Int) ∧ s.col_pos.cell i j = (j : Int) :=
  pooling_one_matrix_identity grid_2x2 (Tensor2D.zeros 2 2) 2 2 2 2 (Tensor2D.zeros 2 2)
    (Tensor2D.zeros 2 2) (by decide) (by decide) rfl rfl (by norm_num) (by norm_num)
    (by decide) (by decide) grid_2x2_above

end textnet
